import Mathlib

/-!
Verification of the buffer-pool / DMA-engine / PIO-sequencer core of the
pico_audio_i2s_32b audio driver.

The intrusive singly-linked buffer lists of `audio.cpp` are embedded as a
pointer heap: buffers are named by natural numbers and the heap maps each
buffer id to its `next` pointer (`none` = NULL).  The list primitives
(`list_remove_head`, `list_remove_head_with_tail`, `list_prepend`,
`list_append_with_tail`) and the pool operations built on them are translated
statement by statement from the source; `assert` / `audio_assert` checks are
modelled as guards, so an operation returns `none` exactly when one of the
source assertions would fire (or NULL would be dereferenced).

On top of the pool operations, `step` embeds the interrupt-driven engine of
`audio_i2s.c` (`audio_i2s_dma_irq_handler` / `audio_start_dma_transfer`)
together with the application-side buffer operations as a transition system
over one consumer pool, two playing-buffer slots and the set of buffers held
by the application (ownership is ghost state; the source tracks it only
implicitly through pointers).
-/

namespace PicoAudio

/-- Pointer heap: `next` field of every buffer. `none` models a NULL pointer. -/
def Heap : Type := Nat → Option Nat

/-- Read a buffer's `next` pointer (`ab->next`). -/
def hNext (h : Heap) (b : Nat) : Option Nat := h b

/-- Write a buffer's `next` pointer (`ab->next = v`). -/
def hSet (h : Heap) (b : Nat) (v : Option Nat) : Heap :=
  fun c => if c = b then v else h c

/-- Heap in which every `next` pointer is NULL. -/
def hNil : Heap := fun _ => none

/-- Embedding of `list_remove_head` (audio.cpp): detach and return the head
buffer of a head-only list; the removed buffer's `next` is cleared.
Returns (new heap, new head, removed buffer). -/
def list_remove_head (h : Heap) (phead : Option Nat) :
    Heap × Option Nat × Option Nat :=
  match phead with
  | none => (h, none, none)
  | some ab => (hSet h ab none, hNext h ab, some ab)

/-- Embedding of `list_remove_head_with_tail` (audio.cpp): like
`list_remove_head` but maintaining the tail pointer.  When the last buffer is
removed the source asserts `*ptail == ab` (modelled by the guard) and clears
the tail.  Returns (new heap, new head, new tail, removed buffer), or `none`
when the tail-consistency assertion fails. -/
def list_remove_head_with_tail (h : Heap) (phead ptail : Option Nat) :
    Option (Heap × Option Nat × Option Nat × Option Nat) :=
  match phead with
  | none => some (h, none, ptail, none)
  | some ab =>
    match hNext h ab with
    | none =>
      if ptail = some ab then some (h, none, none, some ab) else none
    | some nxt => some (hSet h ab none, some nxt, ptail, some ab)

/-- Embedding of `list_prepend` (audio.cpp): push a buffer on the head of a
list.  The source asserts `ab->next == NULL` and `ab != *phead`; both are
modelled as guards.  Returns (new heap, new head). -/
def list_prepend (h : Heap) (phead : Option Nat) (ab : Nat) :
    Option (Heap × Option Nat) :=
  if hNext h ab = none ∧ phead ≠ some ab then
    some (hSet h ab phead, some ab)
  else none

/-- Embedding of `list_append_with_tail` (audio.cpp): append a buffer at the
tail.  Asserts `ab->next == NULL`, `ab != *phead`, `ab != *ptail`; in the
empty case additionally `!*ptail`.  In the non-empty case the source
dereferences `*ptail`, so a NULL tail with a non-NULL head is a crash,
modelled as `none`.  Returns (new heap, new head, new tail). -/
def list_append_with_tail (h : Heap) (phead ptail : Option Nat) (ab : Nat) :
    Option (Heap × Option Nat × Option Nat) :=
  if hNext h ab = none ∧ phead ≠ some ab ∧ ptail ≠ some ab then
    match phead with
    | none =>
      if ptail = none then
        match list_prepend h phead ab with
        | some (h2, hd2) => some (h2, hd2, some ab)
        | none => none
      else none
    | some _ =>
      match ptail with
      | some t => some (hSet h t (some ab), phead, some ab)
      | none => none
  else none

/-- `isChain h hd l` states that starting from head pointer `hd` and following
`next` pointers visits exactly the buffers of `l` and ends at NULL. -/
def isChain (h : Heap) : Option Nat → List Nat → Prop
  | hd, [] => hd = none
  | hd, b :: l => hd = some b ∧ isChain h (hNext h b) l

instance instDecIsChain (h : Heap) : (hd : Option Nat) → (l : List Nat) →
    Decidable (isChain h hd l)
  | hd, [] => by unfold isChain; infer_instance
  | hd, b :: l => by
    unfold isChain
    have : Decidable (isChain h (hNext h b) l) := instDecIsChain h (hNext h b) l
    infer_instance

/-- Follow `next` pointers from `hd`, collecting at most `fuel + 1` buffers. -/
def chainF (h : Heap) : Nat → Option Nat → List Nat
  | _, none => []
  | 0, some b => [b]
  | fuel + 1, some b => b :: chainF h fuel (hNext h b)

/-- Embedding of `audio_buffer_pool_t`: a head-only `free` list and a
head+tail `prepared` list sharing the pointer heap of the pool's buffers.
Spinlocks guard each list in the source; operations here are the contents of
one critical section plus the wake signal issued after release. -/
structure Pool where
  heap : Heap
  free : Option Nat
  prepHd : Option Nat
  prepTl : Option Nat

/-- Body of one iteration of `get_free_audio_buffer`: the spin-locked
`list_remove_head` on the free list. -/
def get_free_locked (p : Pool) : Pool × Option Nat :=
  match list_remove_head p.heap p.free with
  | (h, hd, ab) => ({ p with heap := h, free := hd }, ab)

/-- Embedding of `get_free_audio_buffer` (audio.cpp): a do-while loop that
probes the free list under the spinlock and, when `block` is set and the list
is empty, waits for an event (`__wfe`) and retries.  `env i` is the pool state
observed at the i-th probe (the interference of the other domain between
wakeups; `env 0` is the initial state).  The result carries the pool after
the successful probe, the buffer, and the number of `__wfe` waits performed;
`none` means the fuel ran out while still waiting. -/
def get_free_audio_buffer (env : Nat → Pool) (block : Bool) :
    Nat → Nat → Option (Pool × Option Nat × Nat)
  | 0, _ => none
  | fuel + 1, i =>
    match get_free_locked (env i) with
    | (p', ab) =>
      if ab.isSome || !block then some (p', ab, i)
      else get_free_audio_buffer env block fuel (i + 1)

/-- Embedding of `queue_free_audio_buffer` (audio.cpp): `assert(!ab->next)`,
then the spin-locked `list_prepend` on the free list, then `__sev()`.  The
returned flag records that the wake signal was issued. -/
def queue_free_audio_buffer (p : Pool) (ab : Nat) : Option (Pool × Bool) :=
  if hNext p.heap ab = none then
    match list_prepend p.heap p.free ab with
    | some (h, hd) => some ({ p with heap := h, free := hd }, true)
    | none => none
  else none

/-- Body of one iteration of `get_full_audio_buffer`: the spin-locked
`list_remove_head_with_tail` on the prepared list; `none` when the
tail-consistency assertion fails. -/
def get_full_locked (p : Pool) : Option (Pool × Option Nat) :=
  match list_remove_head_with_tail p.heap p.prepHd p.prepTl with
  | some (h, hd, tl, ab) =>
    some ({ p with heap := h, prepHd := hd, prepTl := tl }, ab)
  | none => none

/-- Embedding of `get_full_audio_buffer` (audio.cpp): the same do-while /
`__wfe` retry loop as `get_free_audio_buffer`, over the prepared list.
`none` covers both an assertion failure inside a probe and fuel running out
while still waiting. -/
def get_full_audio_buffer (env : Nat → Pool) (block : Bool) :
    Nat → Nat → Option (Pool × Option Nat × Nat)
  | 0, _ => none
  | fuel + 1, i =>
    match get_full_locked (env i) with
    | none => none
    | some (p', ab) =>
      if ab.isSome || !block then some (p', ab, i)
      else get_full_audio_buffer env block fuel (i + 1)

/-- Embedding of `queue_full_audio_buffer` (audio.cpp): `assert(!ab->next)`,
then the spin-locked `list_append_with_tail` on the prepared list, then
`__sev()`.  The returned flag records that the wake signal was issued. -/
def queue_full_audio_buffer (p : Pool) (ab : Nat) : Option (Pool × Bool) :=
  if hNext p.heap ab = none then
    match list_append_with_tail p.heap p.prepHd p.prepTl ab with
    | some (h, hd, tl) =>
      some ({ p with heap := h, prepHd := hd, prepTl := tl }, true)
    | none => none
  else none

/-- `PoolRepr p fl pl` relates a pool to the abstract contents of its two
lists: `fl` is the free chain, `pl` the prepared chain, the tail pointer
points at the last prepared buffer (NULL when empty), and no buffer is on
both lists or twice on one. -/
def PoolRepr (p : Pool) (fl pl : List Nat) : Prop :=
  isChain p.heap p.free fl ∧ isChain p.heap p.prepHd pl ∧
  p.prepTl = pl.getLast? ∧ (fl ++ pl).Nodup

instance (p : Pool) (fl pl : List Nat) : Decidable (PoolRepr p fl pl) := by
  unfold PoolRepr; infer_instance

/-- Pool role tag (`audio_buffer_pool::ac_producer` / `ac_consumer`). -/
inductive PoolRole where
  | producer
  | consumer
deriving DecidableEq

/-- Embedding of `audio_connection_t` bound to one producer and one consumer
pool by `audio_complete_connection`.  The four default operation slots are
embedded as the named functions below. -/
structure Connection where
  producer_pool : Pool
  consumer_pool : Pool

/-- Embedding of `producer_pool_give_buffer_default` (audio.cpp): forwards to
`queue_full_audio_buffer(connection->producer_pool, buffer)`. -/
def producer_pool_give_buffer_default (c : Connection) (ab : Nat) :
    Option (Connection × Bool) :=
  match queue_full_audio_buffer c.producer_pool ab with
  | some (p, w) => some ({ c with producer_pool := p }, w)
  | none => none

/-- Embedding of `consumer_pool_give_buffer_default` (audio.cpp): forwards to
`queue_free_audio_buffer(connection->consumer_pool, buffer)`. -/
def consumer_pool_give_buffer_default (c : Connection) (ab : Nat) :
    Option (Connection × Bool) :=
  match queue_free_audio_buffer c.consumer_pool ab with
  | some (p, w) => some ({ c with consumer_pool := p }, w)
  | none => none

/-- Embedding of `give_audio_buffer` (audio.cpp) with the default connection
operations: dispatch on the pool's role to the corresponding give slot.
(The source also clears `buffer->user_data`, which has no counterpart in the
pointer model.) -/
def give_audio_buffer (c : Connection) (role : PoolRole) (ab : Nat) :
    Option (Connection × Bool) :=
  match role with
  | .producer => producer_pool_give_buffer_default c ab
  | .consumer => consumer_pool_give_buffer_default c ab

/-- Embedding of `take_audio_buffer` (audio.cpp) with the default connection
operations: producer pools take from their free list
(`producer_pool_take_buffer_default` = `get_free_audio_buffer`), consumer
pools from their prepared list (`consumer_pool_take_buffer_default` =
`get_full_audio_buffer`).  The constant environment models a call without
cross-domain interference. -/
def take_audio_buffer (c : Connection) (role : PoolRole) (block : Bool)
    (fuel : Nat) : Option (Pool × Option Nat × Nat) :=
  match role with
  | .producer => get_free_audio_buffer (fun _ => c.producer_pool) block fuel 0
  | .consumer => get_full_audio_buffer (fun _ => c.consumer_pool) block fuel 0

/-- Default silence-buffer length: `PICO_AUDIO_I2S_BUFFER_SAMPLE_LENGTH`
(audio_i2s.h), the sample count given to the silence buffer at setup. -/
def PICO_AUDIO_I2S_BUFFER_SAMPLE_LENGTH : Nat := 576

/-- Modelled from the spec: `pico_buffer_alloc` (pico-extras `pico_util`
buffer support, not part of this repository's sources) returns
zero-initialized storage, so the silence buffer allocated in
`audio_i2s_setup` holds the all-zero sample pattern. -/
def silence_bytes (n : Nat) : List Int := List.replicate n 0

/-- Source data the DMA channel is configured from at an arm step
(`dma_channel_configure(..., ab->buffer->bytes, ...)` in
`audio_start_dma_transfer`): the taken buffer's data, or the silence
buffer's data when the take returned NULL. -/
def dma_src_bytes (data : Nat → List Int) (n : Nat) : Option Nat → List Int
  | some b => data b
  | none => silence_bytes n

/-- State of the DMA/ISR engine over its consumer pool: the two
playing-buffer slots of `shared_state` and — as ghost state — the arena size
and the buffers currently held by the application. -/
structure SysState where
  nbuf : Nat
  pool : Pool
  playing0 : Option Nat
  playing1 : Option Nat
  app : List Nat

/-- Events of the engine model: an application take from the free list, an
application give onto the prepared list, and one DMA-completion interrupt for
channel 0 (`ch = false`) or channel 1 (`ch = true`). -/
inductive Ev where
  | takeFree
  | giveFull (b : Nat)
  | irq (ch : Bool)

/-- Observations: the result of a take, the buffer given, or — for an
interrupt — the buffer recycled to the free list (if any) and the buffer the
DMA was armed with (`none` = armed with the silence buffer). -/
inductive Obs where
  | took (r : Option Nat)
  | gave (b : Nat)
  | irqDone (recycled : Option Nat) (armed : Option Nat)

/-- The playing-buffer slot of a DMA channel
(`shared_state.playing_buffer0/1`). -/
def playingSlot (s : SysState) (ch : Bool) : Option Nat :=
  if ch then s.playing1 else s.playing0

/-- Update the playing-buffer slot of a DMA channel. -/
def setSlot (s : SysState) (ch : Bool) (v : Option Nat) : SysState :=
  if ch then { s with playing1 := v } else { s with playing0 := v }

/-- Embedding of `audio_start_dma_transfer` (audio_i2s.c): take a buffer from
the consumer pool without blocking (`take_audio_buffer(audio_i2s_consumer,
false)`, which with the default consumer take is `get_full_audio_buffer`),
record it in the playing-buffer slot, and arm the DMA either from it or —
when the take returned NULL — from the static silence buffer, which is never
recorded in the slot.  Returns the pool after the take and the new slot
value. -/
def audio_start_dma_transfer (p : Pool) : Option (Pool × Option Nat) :=
  match get_full_audio_buffer (fun _ => p) false 1 0 with
  | some (p', ab, _) => some (p', ab)
  | none => none

/-- Recycling phase of `audio_i2s_dma_irq_handler`: when a playing buffer is
recorded for the completed channel, give it back via the consumer give
(`give_audio_buffer(audio_i2s_consumer, ...)`, whose default is
`queue_free_audio_buffer` on the same pool) and clear the slot; otherwise do
nothing. -/
def irq_recycle (p : Pool) (pb : Option Nat) : Option Pool :=
  match pb with
  | some b =>
    match queue_free_audio_buffer p b with
    | some (p', _) => some p'
    | none => none
  | none => some p

/-- One transition of the engine model.  `takeFree` and `giveFull` are the
application-domain pool operations (`get_free_audio_buffer` /
`queue_full_audio_buffer`); `giveFull` requires that the application owns the
buffer.  `irq ch` is `audio_i2s_dma_irq_handler` for channel `ch`: recycle
the recorded playing buffer via the consumer give
(`queue_free_audio_buffer`), then `audio_start_dma_transfer`.  `none` models
a source assertion firing. -/
def step (s : SysState) : Ev → Option (SysState × Obs)
  | .takeFree =>
    match get_free_locked s.pool with
    | (p', ab) => some ({ s with pool := p', app := s.app ++ ab.toList }, .took ab)
  | .giveFull b =>
    if b ∈ s.app then
      match queue_full_audio_buffer s.pool b with
      | some (p', _) => some ({ s with pool := p', app := s.app.erase b }, .gave b)
      | none => none
    else none
  | .irq ch =>
    match irq_recycle s.pool (playingSlot s ch) with
    | none => none
    | some p1 =>
      match audio_start_dma_transfer p1 with
      | some (p2, ab) =>
        some (setSlot { s with pool := p2 } ch ab,
          .irqDone (playingSlot s ch) ab)
      | none => none

/-- Run a sequence of events, collecting the observations in order. -/
def run (s : SysState) : List Ev → Option (SysState × List Obs)
  | [] => some (s, [])
  | e :: tr =>
    match step s e with
    | none => none
    | some (s1, o) =>
      match run s1 tr with
      | none => none
      | some (s2, os) => some (s2, o :: os)

/-- Buffers given to the prepared list, in order of occurrence. -/
def gaveSeq (os : List Obs) : List Nat :=
  os.filterMap fun o =>
    match o with
    | .gave b => some b
    | _ => none

/-- Buffers the DMA was armed with, in order of occurrence (silence arms
contribute nothing). -/
def armedSeq (os : List Obs) : List Nat :=
  os.filterMap fun o =>
    match o with
    | .irqDone _ (some b) => some b
    | _ => none

/-- Buffer recycled to the free list by an interrupt observation, if any. -/
def recycledOf (o : Obs) : Option Nat :=
  match o with
  | .irqDone r _ => r
  | _ => none

/-- The free chain of a system state, read off the pointer heap. -/
def freeListOf (s : SysState) : List Nat :=
  chainF s.pool.heap s.nbuf s.pool.free

/-- The prepared chain of a system state, read off the pointer heap. -/
def prepListOf (s : SysState) : List Nat :=
  chainF s.pool.heap s.nbuf s.pool.prepHd

/-- All owners, in the order free ++ prepared ++ playing0 ++ playing1 ++
application. -/
def ownersOf (s : SysState) : List Nat :=
  freeListOf s ++ prepListOf s ++ s.playing0.toList ++ s.playing1.toList ++ s.app

/-- System invariant: the two chains are well formed with a consistent tail
pointer, every buffer is owned at most once (free list, prepared list, a
playing slot, or the application), owners lie in the arena, and every buffer
not enqueued in a list has a NULL `next` pointer. -/
def Inv (s : SysState) : Prop :=
  PoolRepr s.pool (freeListOf s) (prepListOf s) ∧
  (ownersOf s).Nodup ∧
  (∀ b ∈ ownersOf s, b < s.nbuf) ∧
  (∀ b ∈ List.range s.nbuf, b ∉ freeListOf s → b ∉ prepListOf s →
    hNext s.pool.heap b = none)

instance (s : SysState) : Decidable (Inv s) := by
  unfold Inv; infer_instance

/-- PCM encodings of `audio_pcm_format_t`. -/
inductive audio_pcm_format where
  | s8 | u8 | s16 | u16 | s32 | u32
deriving DecidableEq

/-- Bits per sample of each PCM encoding. -/
def pcm_bits : audio_pcm_format → Nat
  | .s8 | .u8 => 8
  | .s16 | .u16 => 16
  | .s32 | .u32 => 32

/-- Embedding of the divider computation of `update_pio_frequency`
(audio_i2s.c): per format, `system_clock_frequency * m * channel_count /
sample_freq` with `m` = 4, 2, 1 for 8-, 16-, 32-bit samples (C integer
division). -/
def update_pio_divider (system_clock_frequency : Nat) (fmt : audio_pcm_format)
    (channel_count : Nat) (sample_freq : Nat) : Nat :=
  match fmt with
  | .s8 | .u8 => system_clock_frequency * 4 * channel_count / sample_freq
  | .s16 | .u16 => system_clock_frequency * 2 * channel_count / sample_freq
  | .s32 | .u32 => system_clock_frequency * 1 * channel_count / sample_freq

/-- Integer part of the programmed 16.8 clock divider (`divider >> 8u`). -/
def pio_clkdiv_int (d : Nat) : Nat := d / 256

/-- Fractional part of the programmed 16.8 clock divider (`divider & 0xffu`). -/
def pio_clkdiv_frac (d : Nat) : Nat := d % 256

/-- Definition following the spec's words, for comparison with the source:
the 16.8 fixed-point encoding of
system_clock / (sample_rate × bits_per_sample × channel_count). -/
def spec_divider (sysclk rate bits ch : Nat) : Nat :=
  256 * sysclk / (rate * bits * ch)

/-- The applied sample rate stored in `shared_state.freq`, plus an
instrumentation counter of how often `update_pio_frequency` reprogrammed the
clock generator. -/
structure RateState where
  freq : Nat
  reprogram_count : Nat
deriving DecidableEq

/-- Embedding of the rate check at the head of `wrap_consumer_take` and
`wrap_producer_give` (audio_i2s.c): when the producer format's sample rate
differs from `shared_state.freq`, `update_pio_frequency` recomputes the
divider, reprograms the state machine clock and stores the new rate;
otherwise nothing is reprogrammed. -/
def rate_check_step (s : RateState) (producer_rate : Nat) : RateState :=
  if producer_rate ≠ s.freq then
    { freq := producer_rate, reprogram_count := s.reprogram_count + 1 }
  else s

/-- Instructions used by the `audio_i2s` PIO program: `out pins, 1`,
`jmp x-- target`, `mov x, isr`, each with its two side-set bits
(bit0 = BCLK, bit1 = LRCLK). -/
inductive pio_instr where
  | outBit (side : Nat)
  | jmpDec (target : Nat) (side : Nat)
  | movXIsr (side : Nat)

/-- The `audio_i2s` PIO program (audio_i2s.pio): right-channel loop at
offsets 0–3, left-channel loop at offsets 4–7, entry point at offset 7. -/
def audio_i2s_program : List pio_instr :=
  [ .outBit 0, .jmpDec 0 1, .outBit 2, .movXIsr 3,
    .outBit 2, .jmpDec 4 3, .outBit 0, .movXIsr 1 ]

/-- `public entry_point:` label offset of the PIO program. -/
def audio_i2s_offset_entry_point : Nat := 7

/-- PIO state machine state: program counter, scratch register X (bit
counter), the ISR configuration register, and a count of data bits shifted
out so far. -/
structure PioState where
  pc : Nat
  x : Nat
  isr : Nat
  outCount : Nat
deriving DecidableEq

/-- One PIO cycle of the `audio_i2s` program: `out pins, 1` emits one data
bit; `jmp x--` branches while X is non-zero and decrements X (wrapping at
zero, as the hardware register does); `mov x, isr` reloads the bit counter
from the configuration register.  The program counter wraps over the 8
instructions. -/
def pio_step (s : PioState) : PioState :=
  match audio_i2s_program.getD s.pc (.outBit 0) with
  | .outBit _ => { s with pc := (s.pc + 1) % 8, outCount := s.outCount + 1 }
  | .jmpDec t _ =>
    if s.x = 0 then { s with pc := (s.pc + 1) % 8, x := 2 ^ 32 - 1 }
    else { s with pc := t, x := s.x - 1 }
  | .movXIsr _ => { s with pc := (s.pc + 1) % 8, x := s.isr }

/-- Iterate `pio_step`. -/
def pio_run (s : PioState) : Nat → PioState
  | 0 => s
  | n + 1 => pio_run (pio_step s) n

/-- Registers touched by the ISR-configuration sequence of
`audio_i2s_program_init`. -/
structure PioInitState where
  fifo : List Nat
  osr : Nat
  isr : Nat
deriving DecidableEq

/-- `pio_sm_exec(pio, sm, pio_encode_pull(false, false))`: move the head of
the TX FIFO into the OSR. -/
def pio_exec_pull (st : PioInitState) : PioInitState :=
  { st with osr := st.fifo.headD 0, fifo := st.fifo.tail }

/-- `pio_sm_exec(pio, sm, pio_encode_out(pio_isr, 32))`: shift all 32 OSR
bits into the ISR. -/
def pio_exec_out_isr (st : PioInitState) : PioInitState :=
  { st with isr := st.osr }

/-- Embedding of the ISR-configuration tail of `audio_i2s_program_init`
(audio_i2s.pio): `pio_sm_put_blocking(pio, sm, res_bits - 2)` places
`res_bits - 2` in the TX FIFO, then a pull and an `out isr, 32` move it into
the ISR configuration register. -/
def audio_i2s_program_init (res_bits : Nat) : PioInitState :=
  pio_exec_out_isr (pio_exec_pull { fifo := [res_bits - 2], osr := 0, isr := 0 })

/-- Embedding of `audio_format_t`. -/
structure audio_format where
  sample_freq : Nat
  pcm_format : audio_pcm_format
  channel_count : Nat
deriving DecidableEq

/-- Embedding of the validation and return behaviour of `audio_i2s_setup`
(audio_i2s.c).  `Except.error ()` models a failed `assert` (a fatal halt in a
debug build); `Except.ok v` models the function returning, with `v = none`
standing for a NULL pointer and `v = some f` for a pointer to format `f`.
The source asserts stereo output and an S16 or S32 PCM format, and
unconditionally ends with `return output_format;` — there is no return path
producing NULL. -/
def audio_i2s_setup (input_format output_format : audio_format) :
    Except Unit (Option audio_format) :=
  if output_format.channel_count ≠ 2 then .error ()
  else if ¬(output_format.pcm_format = .s16 ∨ output_format.pcm_format = .s32)
    then .error ()
  else .ok (some output_format)

/-- Concrete arena used to evaluate the theorems: three buffers chained on
the free list (0 → 1 → 2). -/
def exampleHeap : Heap :=
  fun c => if c = 0 then some 1 else if c = 1 then some 2 else none

/-- Concrete pool with free list [0, 1, 2] and an empty prepared list. -/
def examplePool : Pool :=
  { heap := exampleHeap, free := some 0, prepHd := none, prepTl := none }

/-- Concrete engine state over `examplePool`. -/
def exampleSys : SysState :=
  { nbuf := 3, pool := examplePool, playing0 := none, playing1 := none,
    app := [] }

/-- Concrete event trace: fill and play two buffers, then underrun. -/
def exampleTrace : List Ev :=
  [.takeFree, .giveFull 0, .irq false, .takeFree, .giveFull 1, .irq true,
   .irq false]

/-- Pool with both lists empty. -/
def emptyPool : Pool :=
  { heap := hNil, free := none, prepHd := none, prepTl := none }

/-- Concrete producer pool: free list [5]. -/
def examplePoolP : Pool :=
  { heap := hNil, free := some 5, prepHd := none, prepTl := none }

/-- Concrete consumer pool: prepared list [7]. -/
def examplePoolC : Pool :=
  { heap := hNil, free := none, prepHd := some 7, prepTl := some 7 }

/-- Concrete connection between two distinct pools. -/
def exampleConn : Connection :=
  { producer_pool := examplePoolP, consumer_pool := examplePoolC }

/-- Concrete connection between two empty pools. -/
def exampleConnEmpty : Connection :=
  { producer_pool := emptyPool, consumer_pool := emptyPool }

/-- Concrete interference environment for the blocking-take loop: the free
list stays empty for the first two probes and then holds buffer 5. -/
def exampleEnv : Nat → Pool := fun i => if i < 2 then emptyPool else examplePoolP

/-- Concrete interference environment over the prepared list: empty for the
first two probes, then holding buffer 7. -/
def examplePrepEnv : Nat → Pool :=
  fun i => if i < 2 then emptyPool else examplePoolC

/-! ## Theorems -/

theorem hSet_self (h : Heap) (b : Nat) (v : Option Nat) :
    hNext (hSet h b v) b = v := by
  simp [hNext, hSet]

theorem hSet_ne (h : Heap) (b c : Nat) (v : Option Nat) (hne : c ≠ b) :
    hNext (hSet h b v) c = hNext h c := by
  simp [hNext, hSet, hne]

/-- A chain is unaffected by writing the `next` pointer of a buffer outside
the chain. -/
theorem isChain_hSet_of_not_mem (h : Heap) (b : Nat) (v : Option Nat) :
    ∀ (hd : Option Nat) (l : List Nat), b ∉ l →
    (isChain (hSet h b v) hd l ↔ isChain h hd l) := by
  intro hd l
  induction l generalizing hd with
  | nil => intro _; simp [isChain]
  | cons c l ih =>
    intro hmem
    have hcb : c ≠ b := by
      intro hcb; exact hmem (by simp [hcb])
    have hbl : b ∉ l := fun hb => hmem (List.mem_cons_of_mem _ hb)
    simp only [isChain, hSet_ne h b c v hcb]
    exact and_congr Iff.rfl (ih (hNext h c) hbl)

/-- The first element of a chain equals the head pointer. -/
theorem isChain_head (h : Heap) (hd : Option Nat) (b : Nat) (l : List Nat)
    (hc : isChain h hd (b :: l)) : hd = some b := hc.1

/-- The chain of a `none` head is empty. -/
theorem isChain_none (h : Heap) (l : List Nat) (hc : isChain h none l) :
    l = [] := by
  cases l with
  | nil => rfl
  | cons b l => exact absurd hc.1 (by simp)

/-- `chainF` recovers the chain list provided enough fuel. -/
theorem chainF_eq_of_isChain (h : Heap) :
    ∀ (l : List Nat) (hd : Option Nat) (fuel : Nat), isChain h hd l →
    l.length ≤ fuel → chainF h fuel hd = l := by
  intro l
  induction l with
  | nil =>
    intro hd fuel hc _
    rw [show hd = none from hc]
    cases fuel <;> rfl
  | cons b l ih =>
    intro hd fuel hc hlen
    rw [isChain_head h hd b l hc]
    cases fuel with
    | zero => exact absurd hlen (by simp)
    | succ fuel =>
      have := ih (hNext h b) fuel hc.2 (by simpa using hlen)
      simp [chainF, this]

theorem getLast?_mem {l : List Nat} {t : Nat} (h : l.getLast? = some t) :
    t ∈ l := by
  induction l with
  | nil => simp at h
  | cons c l ih =>
    cases l with
    | nil => simp at h; simp [h]
    | cons d l =>
      rw [List.getLast?_cons_cons] at h
      exact List.mem_cons_of_mem _ (ih h)

/-- Appending a fresh buffer behind the current last chain element extends the
chain by that buffer. -/
theorem isChain_append_last (h : Heap) :
    ∀ (l : List Nat) (hd : Option Nat) (t ab : Nat),
    isChain h hd l → l.getLast? = some t → l.Nodup → ab ∉ l →
    hNext h ab = none →
    isChain (hSet h t (some ab)) hd (l ++ [ab]) := by
  intro l
  induction l with
  | nil => intro hd t ab _ hlast; simp at hlast
  | cons c l ih =>
    intro hd t ab hc hlast hnd hub hun
    have hcab : ab ≠ c := by
      intro he; exact hub (by simp [he])
    cases l with
    | nil =>
      simp at hlast
      subst hlast
      refine ⟨hc.1, ?_, ?_⟩
      · rw [hSet_self]
      · rw [hSet_ne h c ab (some ab) hcab]
        exact hun
    | cons d l =>
      rw [List.getLast?_cons_cons] at hlast
      have htmem : t ∈ d :: l := getLast?_mem hlast
      have hct : c ≠ t := by
        intro he
        exact (List.nodup_cons.mp hnd).1 (he ▸ htmem)
      refine ⟨hc.1, ?_⟩
      rw [hSet_ne h t c (some ab) hct]
      exact ih (hNext h c) t ab hc.2 hlast (List.nodup_cons.mp hnd).2
        (fun hm => hub (List.mem_cons_of_mem _ hm)) hun

/-- `get_free_audio_buffer` probe on an empty free list: nothing removed, the
pool is unchanged. -/
theorem get_free_locked_nil (p : Pool) (hc : isChain p.heap p.free []) :
    get_free_locked p = (p, none) := by
  have : p.free = none := hc
  cases p
  simp_all [get_free_locked, list_remove_head]

/-- `get_free_audio_buffer` probe on a non-empty free list removes and returns
the head, preserving the prepared list and the representation. -/
theorem get_free_locked_cons (p : Pool) (b : Nat) (fl pl : List Nat)
    (hr : PoolRepr p (b :: fl) pl) :
    ∃ p', get_free_locked p = (p', some b) ∧ PoolRepr p' fl pl ∧
      hNext p'.heap b = none ∧
      p'.prepHd = p.prepHd ∧ p'.prepTl = p.prepTl ∧
      (∀ c, c ≠ b → hNext p'.heap c = hNext p.heap c) := by
  obtain ⟨hcf, hcp, htl, hnd⟩ := hr
  have hfree : p.free = some b := hcf.1
  have hnodup : (b :: (fl ++ pl)).Nodup := hnd
  have hbfl : b ∉ fl := fun hm =>
    (List.nodup_cons.mp hnodup).1 (List.mem_append_left _ hm)
  have hbpl : b ∉ pl := fun hm =>
    (List.nodup_cons.mp hnodup).1 (List.mem_append_right _ hm)
  refine ⟨{ p with heap := hSet p.heap b none, free := hNext p.heap b },
    ?_, ⟨?_, ?_, ?_, ?_⟩, ?_, rfl, rfl, ?_⟩
  · simp [get_free_locked, list_remove_head, hfree]
  · exact (isChain_hSet_of_not_mem p.heap b none _ fl hbfl).mpr hcf.2
  · exact (isChain_hSet_of_not_mem p.heap b none _ pl hbpl).mpr hcp
  · exact htl
  · exact (List.nodup_cons.mp hnodup).2
  · exact hSet_self p.heap b none
  · intro c hcb
    exact hSet_ne p.heap b c none hcb

/-- `queue_free_audio_buffer` pushes a fresh buffer on the head of the free
list, leaves the prepared list alone, and issues the wake signal. -/
theorem queue_free_repr (p : Pool) (ab : Nat) (fl pl : List Nat)
    (hr : PoolRepr p fl pl) (hun : hNext p.heap ab = none)
    (hmem : ab ∉ fl ++ pl) :
    ∃ p', queue_free_audio_buffer p ab = some (p', true) ∧
      PoolRepr p' (ab :: fl) pl ∧
      p'.prepHd = p.prepHd ∧ p'.prepTl = p.prepTl ∧
      (∀ c, c ≠ ab → hNext p'.heap c = hNext p.heap c) := by
  obtain ⟨hcf, hcp, htl, hnd⟩ := hr
  have habfl : ab ∉ fl := fun hm => hmem (List.mem_append_left _ hm)
  have habpl : ab ∉ pl := fun hm => hmem (List.mem_append_right _ hm)
  have hhd : p.free ≠ some ab := by
    intro he
    cases fl with
    | nil => rw [hcf] at he; simp at he
    | cons c fl =>
      have : c = ab := by
        have := hcf.1; rw [he] at this; simpa using this.symm
      exact habfl (by simp [this])
  refine ⟨{ p with heap := hSet p.heap ab p.free, free := some ab },
    ?_, ⟨?_, ?_, ?_, ?_⟩, rfl, rfl, ?_⟩
  · simp [queue_free_audio_buffer, hun, list_prepend, hhd]
  · refine ⟨rfl, ?_⟩
    rw [hSet_self]
    exact (isChain_hSet_of_not_mem p.heap ab p.free _ fl habfl).mpr hcf
  · exact (isChain_hSet_of_not_mem p.heap ab p.free _ pl habpl).mpr hcp
  · exact htl
  · exact List.nodup_cons.mpr ⟨hmem, hnd⟩
  · intro c hc
    exact hSet_ne p.heap ab c p.free hc

/-- `get_full_audio_buffer` probe on an empty prepared list: nothing removed,
no assertion fires, the pool is unchanged. -/
theorem get_full_locked_nil (p : Pool) (hc : isChain p.heap p.prepHd [])
    (htl : p.prepTl = none) :
    get_full_locked p = some (p, none) := by
  have : p.prepHd = none := hc
  cases p
  simp_all [get_full_locked, list_remove_head_with_tail]

/-- `get_full_audio_buffer` probe on a non-empty prepared list removes and
returns the head; the tail-consistency assertion passes, the tail pointer is
cleared exactly when the list empties, and the free list is untouched. -/
theorem get_full_locked_cons (p : Pool) (b : Nat) (fl pl : List Nat)
    (hr : PoolRepr p fl (b :: pl)) :
    ∃ p', get_full_locked p = some (p', some b) ∧ PoolRepr p' fl pl ∧
      hNext p'.heap b = none ∧ p'.free = p.free ∧
      (∀ c, c ≠ b → hNext p'.heap c = hNext p.heap c) := by
  obtain ⟨hcf, hcp, htl, hnd⟩ := hr
  obtain ⟨hndf, hndp, hdisj⟩ := List.nodup_append.mp hnd
  have hhd : p.prepHd = some b := hcp.1
  have hbfl : b ∉ fl := fun hm => hdisj hm (by simp)
  cases pl with
  | nil =>
    have hbn : hNext p.heap b = none := hcp.2
    have htlb : p.prepTl = some b := by simpa using htl
    refine ⟨{ p with prepHd := none, prepTl := none },
      ?_, ⟨hcf, rfl, by simp, by simpa using hndf⟩, hbn, rfl, ?_⟩
    · simp [get_full_locked, list_remove_head_with_tail, hhd, hbn, htlb]
    · intro c _; rfl
  | cons c pl =>
    have hbn : hNext p.heap b = some c := hcp.2.1
    have hbpl : b ∉ c :: pl := (List.nodup_cons.mp hndp).1
    refine ⟨{ p with heap := hSet p.heap b none, prepHd := some c },
      ?_, ⟨?_, ?_, ?_, ?_⟩, hSet_self p.heap b none, rfl, ?_⟩
    · simp [get_full_locked, list_remove_head_with_tail, hhd, hbn]
    · exact (isChain_hSet_of_not_mem p.heap b none _ fl hbfl).mpr hcf
    · have hc2 : isChain p.heap (some c) (c :: pl) := hbn ▸ hcp.2
      exact (isChain_hSet_of_not_mem p.heap b none (some c) (c :: pl) hbpl).mpr hc2
    · exact htl.trans List.getLast?_cons_cons
    · refine List.nodup_append.mpr ⟨hndf, (List.nodup_cons.mp hndp).2, ?_⟩
      intro a haf hap
      exact hdisj haf (List.mem_cons_of_mem _ hap)
    · intro a hab
      exact hSet_ne p.heap b a none hab

/-- `queue_full_audio_buffer` appends a fresh buffer at the tail of the
prepared list (O(1) through the tail pointer), leaves the free list alone,
and issues the wake signal; every source assertion passes. -/
theorem queue_full_repr (p : Pool) (ab : Nat) (fl pl : List Nat)
    (hr : PoolRepr p fl pl) (hun : hNext p.heap ab = none)
    (hmem : ab ∉ fl ++ pl) :
    ∃ p', queue_full_audio_buffer p ab = some (p', true) ∧
      PoolRepr p' fl (pl ++ [ab]) ∧ p'.free = p.free ∧
      (∀ c, c ∉ pl → c ≠ ab → hNext p'.heap c = hNext p.heap c) := by
  obtain ⟨hcf, hcp, htl, hnd⟩ := hr
  obtain ⟨hndf, hndp, hdisj⟩ := List.nodup_append.mp hnd
  have habfl : ab ∉ fl := fun hm => hmem (List.mem_append_left _ hm)
  have habpl : ab ∉ pl := fun hm => hmem (List.mem_append_right _ hm)
  have hndall : (fl ++ (pl ++ [ab])).Nodup := by
    rw [← List.append_assoc]
    exact (List.perm_append_singleton ab (fl ++ pl)).symm.nodup
      (List.nodup_cons.mpr ⟨hmem, hnd⟩)
  cases pl with
  | nil =>
    have hhd : p.prepHd = none := hcp
    have htln : p.prepTl = none := by simpa using htl
    refine ⟨Pool.mk (hSet p.heap ab none) p.free (some ab) (some ab),
      ?_, ⟨?_, ?_, by simp, hndall⟩, rfl, ?_⟩
    · simp [queue_full_audio_buffer, hun, list_append_with_tail, hhd, htln,
        list_prepend]
    · exact (isChain_hSet_of_not_mem p.heap ab none _ fl habfl).mpr hcf
    · exact ⟨rfl, by simp [isChain, hSet_self]⟩
    · intro c _ hc
      exact hSet_ne p.heap ab c none hc
  | cons b pl =>
    have hhd : p.prepHd = some b := hcp.1
    obtain ⟨t, ht⟩ : ∃ t, (b :: pl).getLast? = some t := by
      cases h : (b :: pl).getLast? with
      | some t => exact ⟨t, rfl⟩
      | none => simp [List.getLast?_eq_none_iff] at h
    have htmem : t ∈ b :: pl := getLast?_mem ht
    have htfl : t ∉ fl := fun hm => hdisj hm htmem
    have htab : t ≠ ab := fun he => habpl (he ▸ htmem)
    have htlt : p.prepTl = some t := htl.trans ht
    have hhdab : p.prepHd ≠ some ab := by
      rw [hhd]; intro he
      exact habpl (by simp [show b = ab by simpa using he])
    have htlab : p.prepTl ≠ some ab := by
      rw [htlt]; intro he
      exact htab (by simpa using he)
    refine ⟨{ p with heap := hSet p.heap t (some ab), prepTl := some ab },
      ?_, ⟨?_, ?_, ?_, hndall⟩, rfl, ?_⟩
    · simp [queue_full_audio_buffer, hun, list_append_with_tail, hhd, htlt,
        hhd ▸ hhdab, htab]
    · exact (isChain_hSet_of_not_mem p.heap t (some ab) _ fl htfl).mpr hcf
    · exact isChain_append_last p.heap (b :: pl) p.prepHd t ab hcp ht hndp
        habpl hun
    · exact (List.getLast?_concat (b :: pl)).symm
    · intro c hcpl hcab
      have hct : c ≠ t := fun he => hcpl (he ▸ htmem)
      exact hSet_ne p.heap t c (some ab) hct

/-- A duplicate-free list of naturals below `n` has at most `n` elements. -/
theorem length_le_of_nodup_lt (l : List Nat) (n : Nat) (hnd : l.Nodup)
    (hlt : ∀ b ∈ l, b < n) : l.length ≤ n := by
  have hsub : l ⊆ List.range n := fun b hb => List.mem_range.mpr (hlt b hb)
  have := (hnd.subperm hsub).length_le
  simpa using this

/-- A non-blocking `get_full_audio_buffer` performs exactly one probe. -/
theorem get_full_nonblocking (env : Nat → Pool) (fuel i : Nat) :
    get_full_audio_buffer env false (fuel + 1) i =
      (get_full_locked (env i)).map (fun r => (r.1, r.2, i)) := by
  unfold get_full_audio_buffer
  cases get_full_locked (env i) with
  | none => rfl
  | some r => simp

/-- A non-blocking `get_free_audio_buffer` performs exactly one probe. -/
theorem get_free_nonblocking (env : Nat → Pool) (fuel i : Nat) :
    get_free_audio_buffer env false (fuel + 1) i =
      some ((get_free_locked (env i)).1, (get_free_locked (env i)).2, i) := by
  unfold get_free_audio_buffer
  simp

/-- The recycling phase of the interrupt handler: an empty slot does nothing;
a recorded playing buffer is prepended to the free list. -/
theorem irq_recycle_spec (p : Pool) (pb : Option Nat) (fl pl : List Nat)
    (hr : PoolRepr p fl pl)
    (hfresh : ∀ b0, pb = some b0 → hNext p.heap b0 = none ∧ b0 ∉ fl ++ pl) :
    ∃ p1, irq_recycle p pb = some p1 ∧
      PoolRepr p1 (pb.toList ++ fl) pl ∧
      p1.prepHd = p.prepHd ∧ p1.prepTl = p.prepTl ∧
      (∀ c, (∀ b0, pb = some b0 → c ≠ b0) →
        hNext p1.heap c = hNext p.heap c) := by
  cases pb with
  | none =>
    exact ⟨p, rfl, hr, rfl, rfl, fun c _ => rfl⟩
  | some b0 =>
    obtain ⟨hb0n, hb0m⟩ := hfresh b0 rfl
    obtain ⟨p1, heq, hrepr1, hph, hpt, hother⟩ :=
      queue_free_repr p b0 fl pl hr hb0n hb0m
    refine ⟨p1, ?_, hrepr1, hph, hpt, ?_⟩
    · simp [irq_recycle, heq]
    · intro c hc
      exact hother c (hc b0 rfl)

/-- The arm phase (`audio_start_dma_transfer`): with an empty prepared list
the take returns NULL and the pool is unchanged (the DMA is armed from the
silence buffer); otherwise the head of the prepared list is taken. -/
theorem audio_start_dma_transfer_spec (p : Pool) (fl pl : List Nat)
    (hr : PoolRepr p fl pl) :
    (pl = [] → audio_start_dma_transfer p = some (p, none)) ∧
    (∀ c pl', pl = c :: pl' →
      ∃ p2, audio_start_dma_transfer p = some (p2, some c) ∧
        PoolRepr p2 fl pl' ∧ hNext p2.heap c = none ∧ p2.free = p.free ∧
        (∀ a, a ≠ c → hNext p2.heap a = hNext p.heap a)) := by
  constructor
  · intro hpl
    subst hpl
    have h1 := get_full_locked_nil p hr.2.1 (by simpa using hr.2.2.1)
    simp [audio_start_dma_transfer, get_full_nonblocking, h1]
  · intro c pl' hpl
    subst hpl
    obtain ⟨p2, heq, hrepr2, hnc, hfr, hother⟩ :=
      get_full_locked_cons p c fl pl' hr
    refine ⟨p2, ?_, hrepr2, hnc, hfr, hother⟩
    simp [audio_start_dma_transfer, get_full_nonblocking, heq]

theorem freeListOf_eq (s : SysState) (l : List Nat)
    (hch : isChain s.pool.heap s.pool.free l) (hnd : l.Nodup)
    (hlt : ∀ b ∈ l, b < s.nbuf) : freeListOf s = l :=
  chainF_eq_of_isChain _ l _ s.nbuf hch (length_le_of_nodup_lt l s.nbuf hnd hlt)

theorem prepListOf_eq (s : SysState) (l : List Nat)
    (hch : isChain s.pool.heap s.pool.prepHd l) (hnd : l.Nodup)
    (hlt : ∀ b ∈ l, b < s.nbuf) : prepListOf s = l :=
  chainF_eq_of_isChain _ l _ s.nbuf hch (length_le_of_nodup_lt l s.nbuf hnd hlt)

theorem setSlot_pool (s : SysState) (ch : Bool) (v : Option Nat) :
    (setSlot s ch v).pool = s.pool := by cases ch <;> rfl

theorem setSlot_nbuf (s : SysState) (ch : Bool) (v : Option Nat) :
    (setSlot s ch v).nbuf = s.nbuf := by cases ch <;> rfl

theorem setSlot_app (s : SysState) (ch : Bool) (v : Option Nat) :
    (setSlot s ch v).app = s.app := by cases ch <;> rfl

theorem setSlot_playing0 (s : SysState) (ch : Bool) (v : Option Nat) :
    (setSlot s ch v).playing0 = if ch then s.playing0 else v := by
  cases ch <;> rfl

theorem setSlot_playing1 (s : SysState) (ch : Bool) (v : Option Nat) :
    (setSlot s ch v).playing1 = if ch then v else s.playing1 := by
  cases ch <;> rfl

theorem playingSlot_setSlot (s : SysState) (ch : Bool) (v : Option Nat) :
    playingSlot (setSlot s ch v) ch = v := by
  cases ch <;> rfl

theorem mem_owners_free {s : SysState} {a : Nat} (h : a ∈ freeListOf s) :
    a ∈ ownersOf s := by simp [ownersOf, h]

theorem mem_owners_prep {s : SysState} {a : Nat} (h : a ∈ prepListOf s) :
    a ∈ ownersOf s := by simp [ownersOf, h]

theorem mem_owners_p0 {s : SysState} {a : Nat} (h : s.playing0 = some a) :
    a ∈ ownersOf s := by simp [ownersOf, h]

theorem mem_owners_p1 {s : SysState} {a : Nat} (h : s.playing1 = some a) :
    a ∈ ownersOf s := by simp [ownersOf, h]

theorem mem_owners_app {s : SysState} {a : Nat} (h : a ∈ s.app) :
    a ∈ ownersOf s := by simp [ownersOf, h]

/-- A buffer held by the application is on neither list. -/
theorem app_not_in_lists {s : SysState} {a : Nat}
    (hnd : (ownersOf s).Nodup) (h : a ∈ s.app) :
    a ∉ freeListOf s ++ prepListOf s := by
  intro hmem
  have hd := (List.nodup_append.mp hnd).2.2
  exact hd (List.mem_append_left _ (List.mem_append_left _ hmem)) h

/-- A buffer recorded in playing slot 0 is on neither list. -/
theorem p0_not_in_lists {s : SysState} {a : Nat}
    (hnd : (ownersOf s).Nodup) (h : s.playing0 = some a) :
    a ∉ freeListOf s ++ prepListOf s := by
  intro hmem
  have h2 : ((freeListOf s ++ prepListOf s) ++ s.playing0.toList).Nodup :=
    ((List.nodup_append.mp hnd).1 |> List.nodup_append.mp).1
  have hd := (List.nodup_append.mp h2).2.2
  exact hd hmem (by simp [h])

/-- A buffer recorded in playing slot 1 is on neither list. -/
theorem p1_not_in_lists {s : SysState} {a : Nat}
    (hnd : (ownersOf s).Nodup) (h : s.playing1 = some a) :
    a ∉ freeListOf s ++ prepListOf s := by
  intro hmem
  have h3 : (((freeListOf s ++ prepListOf s) ++ s.playing0.toList) ++
      s.playing1.toList).Nodup := (List.nodup_append.mp hnd).1
  have hd := (List.nodup_append.mp h3).2.2
  exact hd (List.mem_append_left _ hmem) (by simp [h])

/-- An owned buffer that is on neither list has a NULL `next` pointer. -/
theorem owner_next_null {s : SysState} {a : Nat} (hinv : Inv s)
    (howner : a ∈ ownersOf s) (hmem : a ∉ freeListOf s ++ prepListOf s) :
    hNext s.pool.heap a = none := by
  refine hinv.2.2.2 a (List.mem_range.mpr (hinv.2.2.1 a howner)) ?_ ?_
  · exact fun h => hmem (List.mem_append_left _ h)
  · exact fun h => hmem (List.mem_append_right _ h)

/-- Application take from the free list preserves the invariant: the head
moves from the free list to the application, everything else is untouched. -/
theorem step_inv_takeFree (s : SysState) (s' : SysState) (o : Obs)
    (hinv : Inv s) (hs : step s .takeFree = some (s', o)) :
    Inv s' ∧ s'.nbuf = s.nbuf ∧
    armedSeq [o] ++ prepListOf s' = prepListOf s ++ gaveSeq [o] := by
  obtain ⟨hrepr, hnd, hlt, hnull⟩ := hinv
  cases hfl : freeListOf s with
  | nil =>
    have hchain : isChain s.pool.heap s.pool.free [] := by
      have := hrepr.1; rwa [hfl] at this
    have hnil := get_free_locked_nil s.pool hchain
    simp only [step, hnil] at hs
    injection hs with hpair
    injection hpair with h1 h2
    subst h1; subst h2
    have hA : ({ s with pool := s.pool, app := s.app ++ (none : Option Nat).toList } : SysState) = s := by
      cases s; simp
    rw [hA]
    exact ⟨⟨hrepr, hnd, hlt, hnull⟩, rfl, by simp [armedSeq, gaveSeq]⟩
  | cons b fl' =>
    have hreprS : PoolRepr s.pool (b :: fl') (prepListOf s) := by
      have := hrepr; rwa [hfl] at this
    obtain ⟨p', hgl, hrepr2, hnb, hph, hpt, hother⟩ :=
      get_free_locked_cons s.pool b fl' (prepListOf s) hreprS
    simp only [step, hgl] at hs
    injection hs with hpair
    injection hpair with h1 h2
    subst h1; subst h2
    have hblt : b < s.nbuf := hlt b (mem_owners_free (by simp [hfl]))
    have hfl'lt : ∀ a ∈ fl', a < s.nbuf := fun a ha =>
      hlt a (mem_owners_free (by simp [hfl, ha]))
    have hpllt : ∀ a ∈ prepListOf s, a < s.nbuf := fun a ha =>
      hlt a (mem_owners_prep ha)
    obtain ⟨hndf2, hndp2, _⟩ := List.nodup_append.mp hrepr2.2.2.2
    set sA : SysState := { s with pool := p', app := s.app ++ (some b).toList }
      with hsA
    have hfree' : freeListOf sA = fl' :=
      freeListOf_eq sA fl' hrepr2.1 hndf2 hfl'lt
    have hprep' : prepListOf sA = prepListOf s :=
      prepListOf_eq sA (prepListOf s) hrepr2.2.1 hndp2 hpllt
    have hperm : List.Perm (ownersOf sA) (ownersOf s) := by
      simp only [ownersOf, hfree', hprep', hsA, hfl]
      refine List.perm_iff_count.mpr fun a => ?_
      simp [List.count_append, List.count_cons]
      omega
    refine ⟨⟨?_, ?_, ?_, ?_⟩, rfl, ?_⟩
    · rw [hfree', hprep']; exact hrepr2
    · exact hperm.symm.nodup hnd
    · intro a ha
      exact hlt a (hperm.mem_iff.mp ha)
    · intro a ha haf hap
      rw [hfree'] at haf
      rw [hprep'] at hap
      by_cases hab : a = b
      · subst hab; exact hnb
      · rw [hother a hab]
        exact hnull a ha (by simp [hfl, hab, haf]) hap
    · simp [armedSeq, gaveSeq, hprep']

/-- Application give onto the prepared list preserves the invariant: the
buffer moves from the application to the tail of the prepared chain. -/
theorem step_inv_giveFull (s : SysState) (b : Nat) (s' : SysState) (o : Obs)
    (hinv : Inv s) (hs : step s (.giveFull b) = some (s', o)) :
    Inv s' ∧ s'.nbuf = s.nbuf ∧
    armedSeq [o] ++ prepListOf s' = prepListOf s ++ gaveSeq [o] := by
  obtain ⟨hrepr, hnd, hlt, hnull⟩ := hinv
  by_cases hmem : b ∈ s.app
  case neg => simp [step, hmem] at hs
  case pos =>
  have hnotl : b ∉ freeListOf s ++ prepListOf s := app_not_in_lists hnd hmem
  have hbn : hNext s.pool.heap b = none :=
    owner_next_null ⟨hrepr, hnd, hlt, hnull⟩ (mem_owners_app hmem) hnotl
  obtain ⟨p', heq, hrepr2, hfr, hother⟩ :=
    queue_full_repr s.pool b (freeListOf s) (prepListOf s) hrepr hbn hnotl
  simp only [step, hmem, if_pos, heq] at hs
  injection hs with hpair
  injection hpair with h1 h2
  subst h1; subst h2
  obtain ⟨hndf2, hndp2, _⟩ := List.nodup_append.mp hrepr2.2.2.2
  set sA : SysState := { s with pool := p', app := s.app.erase b } with hsA
  have hfree' : freeListOf sA = freeListOf s :=
    freeListOf_eq sA _ hrepr2.1 hndf2 (fun a ha => hlt a (mem_owners_free ha))
  have hprep' : prepListOf sA = prepListOf s ++ [b] := by
    refine prepListOf_eq sA _ hrepr2.2.1 hndp2 (fun a ha => ?_)
    rcases List.mem_append.mp ha with h | h
    · exact hlt a (mem_owners_prep h)
    · have : a = b := by simpa using h
      subst this
      exact hlt a (mem_owners_app hmem)
  have hperm : List.Perm (ownersOf sA) (ownersOf s) := by
    simp only [ownersOf, hfree', hprep', hsA]
    refine List.perm_iff_count.mpr fun a => ?_
    have hc := (List.perm_cons_erase hmem).count_eq a
    simp [List.count_append, List.count_cons] at hc ⊢
    omega
  refine ⟨⟨?_, ?_, ?_, ?_⟩, rfl, ?_⟩
  · rw [hfree', hprep']; exact hrepr2
  · exact hperm.symm.nodup hnd
  · intro a ha
    exact hlt a (hperm.mem_iff.mp ha)
  · intro a ha haf hap
    rw [hfree'] at haf
    rw [hprep'] at hap
    have hapl : a ∉ prepListOf s := fun h => hap (List.mem_append_left _ h)
    have hab : a ≠ b := fun h => hap (by simp [h])
    rw [hother a hapl hab]
    exact hnull a ha haf hapl
  · simp [armedSeq, gaveSeq, hprep']

theorem freeListOf_setSlot (s : SysState) (ch : Bool) (v : Option Nat) :
    freeListOf (setSlot s ch v) = freeListOf s := by cases ch <;> rfl

theorem prepListOf_setSlot (s : SysState) (ch : Bool) (v : Option Nat) :
    prepListOf (setSlot s ch v) = prepListOf s := by cases ch <;> rfl

/-- A DMA-completion interrupt preserves the invariant: the finished playing
buffer (if any) moves to the free list, the head of the prepared list (if
any) moves into the playing slot, and a silence arm moves nothing. -/
theorem step_inv_irq (s : SysState) (ch : Bool) (s' : SysState) (o : Obs)
    (hinv : Inv s) (hs : step s (.irq ch) = some (s', o)) :
    Inv s' ∧ s'.nbuf = s.nbuf ∧
    armedSeq [o] ++ prepListOf s' = prepListOf s ++ gaveSeq [o] := by
  obtain ⟨hrepr, hnd, hlt, hnull⟩ := hinv
  have hpbf : ∀ b0, playingSlot s ch = some b0 →
      hNext s.pool.heap b0 = none ∧ b0 ∉ freeListOf s ++ prepListOf s := by
    intro b0 hb0
    cases ch with
    | false =>
      have h0 : s.playing0 = some b0 := hb0
      have hnot := p0_not_in_lists hnd h0
      exact ⟨owner_next_null ⟨hrepr, hnd, hlt, hnull⟩ (mem_owners_p0 h0) hnot,
        hnot⟩
    | true =>
      have h1 : s.playing1 = some b0 := hb0
      have hnot := p1_not_in_lists hnd h1
      exact ⟨owner_next_null ⟨hrepr, hnd, hlt, hnull⟩ (mem_owners_p1 h1) hnot,
        hnot⟩
  obtain ⟨p1, heq1, hrepr1, hph1, hpt1, hother1⟩ :=
    irq_recycle_spec s.pool (playingSlot s ch) (freeListOf s) (prepListOf s)
      hrepr hpbf
  have hfl1lt : ∀ a ∈ (playingSlot s ch).toList ++ freeListOf s, a < s.nbuf := by
    intro a ha
    rcases List.mem_append.mp ha with h | h
    · have hpb : playingSlot s ch = some a := by
        cases hp : playingSlot s ch <;> simp [hp] at h
        exact congrArg some h.symm
      cases ch with
      | false => exact hlt a (mem_owners_p0 hpb)
      | true => exact hlt a (mem_owners_p1 hpb)
    · exact hlt a (mem_owners_free h)
  obtain ⟨hnd1f, hnd1p, _⟩ := List.nodup_append.mp hrepr1.2.2.2
  have hspec := audio_start_dma_transfer_spec p1 _ _ hrepr1
  cases hpl : prepListOf s with
  | nil =>
    rw [hpl] at hrepr1
    simp only [step, heq1, hspec.1 hpl] at hs
    injection hs with hpair
    injection hpair with h1 h2
    subst h1; subst h2
    have hfree' : freeListOf (setSlot { s with pool := p1 } ch none) =
        (playingSlot s ch).toList ++ freeListOf s := by
      rw [freeListOf_setSlot]
      exact freeListOf_eq _ _ hrepr1.1 hnd1f hfl1lt
    have hprep' : prepListOf (setSlot { s with pool := p1 } ch none) = [] := by
      rw [prepListOf_setSlot]
      exact prepListOf_eq _ _ hrepr1.2.1 (by simp) (by simp)
    have hperm : List.Perm (ownersOf (setSlot { s with pool := p1 } ch none))
        (ownersOf s) := by
      cases ch with
      | false =>
        simp only [ownersOf, hfree', hprep', setSlot_playing0,
          setSlot_playing1, setSlot_app, playingSlot, hpl]
        refine List.perm_iff_count.mpr fun a => ?_
        simp [List.count_append]
        omega
      | true =>
        simp only [ownersOf, hfree', hprep', setSlot_playing0,
          setSlot_playing1, setSlot_app, playingSlot, hpl]
        refine List.perm_iff_count.mpr fun a => ?_
        simp [List.count_append]
        omega
    refine ⟨⟨?_, ?_, ?_, ?_⟩, by rw [setSlot_nbuf], ?_⟩
    · rw [hfree', hprep', setSlot_pool]
      exact hrepr1
    · exact hperm.symm.nodup hnd
    · intro a ha
      rw [setSlot_nbuf]
      exact hlt a (hperm.mem_iff.mp ha)
    · intro a ha haf hap
      rw [setSlot_nbuf] at ha
      rw [hfree'] at haf
      rw [setSlot_pool]
      have hatl : ∀ b0, playingSlot s ch = some b0 → a ≠ b0 := by
        intro b0 hb0 he
        exact haf (List.mem_append_left _ (by simp [hb0, he]))
      rw [hother1 a hatl]
      exact hnull a ha (fun h => haf (List.mem_append_right _ h))
        (by simp [hpl])
    · simp [armedSeq, gaveSeq, hprep']
  | cons c pl' =>
    obtain ⟨p2, heq2, hrepr2, hnc, hfr2, hother2⟩ := hspec.2 c pl' hpl
    simp only [step, heq1, heq2] at hs
    injection hs with hpair
    injection hpair with h1 h2
    subst h1; subst h2
    obtain ⟨hnd2f, hnd2p, _⟩ := List.nodup_append.mp hrepr2.2.2.2
    have hfree' : freeListOf (setSlot { s with pool := p2 } ch (some c)) =
        (playingSlot s ch).toList ++ freeListOf s := by
      rw [freeListOf_setSlot]
      exact freeListOf_eq _ _ hrepr2.1 hnd2f hfl1lt
    have hprep' : prepListOf (setSlot { s with pool := p2 } ch (some c)) =
        pl' := by
      rw [prepListOf_setSlot]
      refine prepListOf_eq _ _ hrepr2.2.1 hnd2p (fun a ha => ?_)
      exact hlt a (mem_owners_prep (by simp [hpl, ha]))
    have hperm : List.Perm
        (ownersOf (setSlot { s with pool := p2 } ch (some c)))
        (ownersOf s) := by
      cases ch with
      | false =>
        simp only [ownersOf, hfree', hprep', setSlot_playing0,
          setSlot_playing1, setSlot_app, playingSlot, hpl]
        refine List.perm_iff_count.mpr fun a => ?_
        simp [List.count_append, List.count_cons]
        omega
      | true =>
        simp only [ownersOf, hfree', hprep', setSlot_playing0,
          setSlot_playing1, setSlot_app, playingSlot, hpl]
        refine List.perm_iff_count.mpr fun a => ?_
        simp [List.count_append, List.count_cons]
        omega
    refine ⟨⟨?_, ?_, ?_, ?_⟩, by rw [setSlot_nbuf], ?_⟩
    · rw [hfree', hprep', setSlot_pool]
      exact hrepr2
    · exact hperm.symm.nodup hnd
    · intro a ha
      rw [setSlot_nbuf]
      exact hlt a (hperm.mem_iff.mp ha)
    · intro a ha haf hap
      rw [setSlot_nbuf] at ha
      rw [hfree'] at haf
      rw [hprep'] at hap
      rw [setSlot_pool]
      by_cases hac : a = c
      · subst hac; exact hnc
      · rw [hother2 a hac]
        have hatl : ∀ b0, playingSlot s ch = some b0 → a ≠ b0 := by
          intro b0 hb0 he
          exact haf (List.mem_append_left _ (by simp [hb0, he]))
        rw [hother1 a hatl]
        exact hnull a ha (fun h => haf (List.mem_append_right _ h))
          (by simp [hpl, hac, hap])
    · simp [armedSeq, gaveSeq, hprep']

/-- Every successful step preserves the invariant, the arena size, and the
FIFO accounting equation relating armed buffers, the prepared chain and given
buffers. -/
theorem step_inv (s : SysState) (e : Ev) (s' : SysState) (o : Obs)
    (hinv : Inv s) (hs : step s e = some (s', o)) :
    Inv s' ∧ s'.nbuf = s.nbuf ∧
    armedSeq [o] ++ prepListOf s' = prepListOf s ++ gaveSeq [o] := by
  cases e with
  | takeFree => exact step_inv_takeFree s s' o hinv hs
  | giveFull b => exact step_inv_giveFull s b s' o hinv hs
  | irq ch => exact step_inv_irq s ch s' o hinv hs

/-- Trace-level invariant preservation and FIFO accounting. -/
theorem run_inv (s : SysState) (tr : List Ev) (s' : SysState) (os : List Obs)
    (hinv : Inv s) (hr : run s tr = some (s', os)) :
    Inv s' ∧ armedSeq os ++ prepListOf s' = prepListOf s ++ gaveSeq os := by
  induction tr generalizing s os with
  | nil =>
    simp [run] at hr
    obtain ⟨rfl, rfl⟩ := hr
    exact ⟨hinv, by simp [armedSeq, gaveSeq]⟩
  | cons e tr ih =>
    cases hstep : step s e with
    | none => simp [run, hstep] at hr
    | some r =>
      obtain ⟨s1, o⟩ := r
      cases hrun : run s1 tr with
      | none => simp [run, hstep, hrun] at hr
      | some r2 =>
        obtain ⟨s2, os2⟩ := r2
        simp [run, hstep, hrun] at hr
        obtain ⟨rfl, rfl⟩ := hr
        obtain ⟨hinv1, _, hfifo1⟩ := step_inv s e s1 o hinv hstep
        obtain ⟨hinv2, hfifo2⟩ := ih s1 os2 hinv1 hrun
        refine ⟨hinv2, ?_⟩
        have ha : armedSeq (o :: os2) = armedSeq [o] ++ armedSeq os2 :=
          List.filterMap_append [o] os2 _
        have hg : gaveSeq (o :: os2) = gaveSeq [o] ++ gaveSeq os2 :=
          List.filterMap_append [o] os2 _
        rw [ha, hg, List.append_assoc, hfifo2, ← List.append_assoc, hfifo1,
          List.append_assoc]

/-- Under the representation invariant, the prepared tail pointer is NULL
exactly when the head pointer is. -/
theorem prepTl_none_iff (p : Pool) (fl pl : List Nat) (h : PoolRepr p fl pl) :
    p.prepTl = none ↔ p.prepHd = none := by
  cases pl with
  | nil =>
    have h1 : p.prepTl = none := by simpa using h.2.2.1
    have h2 : p.prepHd = none := h.2.1
    simp [h1, h2]
  | cons b pl =>
    have h1 : p.prepHd = some b := h.2.1.1
    obtain ⟨t, ht⟩ : ∃ t, (b :: pl).getLast? = some t := by
      cases hg : (b :: pl).getLast? with
      | some t => exact ⟨t, rfl⟩
      | none => simp [List.getLast?_eq_none_iff] at hg
    have h2 : p.prepTl = some t := h.2.2.1.trans ht
    simp [h1, h2]

/-- C10: the prepared list's head/tail pair is kept consistent: the tail
pointer is NULL exactly when the head is, and otherwise points at the last
node; `queue_full_audio_buffer` (append at tail) and `get_full_audio_buffer`
(remove head, clearing the tail when the last node is removed) both preserve
this invariant. -/
theorem prepared_head_tail_consistent (p : Pool) (ab : Nat) (fl pl : List Nat)
    (hr : PoolRepr p fl pl) (hn : hNext p.heap ab = none)
    (hm : ab ∉ fl ++ pl) :
    (p.prepTl = none ↔ p.prepHd = none) ∧ p.prepTl = pl.getLast? ∧
    (∃ p', queue_full_audio_buffer p ab = some (p', true) ∧
      (p'.prepTl = none ↔ p'.prepHd = none) ∧
      p'.prepTl = (pl ++ [ab]).getLast?) ∧
    (∃ p' r, get_full_locked p = some (p', r) ∧ r = pl.head? ∧
      (p'.prepTl = none ↔ p'.prepHd = none) ∧
      p'.prepTl = pl.tail.getLast?) := by
  refine ⟨prepTl_none_iff p fl pl hr, hr.2.2.1, ?_, ?_⟩
  · obtain ⟨p', heq, hrepr', _, _⟩ := queue_full_repr p ab fl pl hr hn hm
    exact ⟨p', heq, prepTl_none_iff p' fl (pl ++ [ab]) hrepr', hrepr'.2.2.1⟩
  · cases pl with
    | nil =>
      have heq := get_full_locked_nil p hr.2.1 (by simpa using hr.2.2.1)
      refine ⟨p, none, heq, rfl, prepTl_none_iff p fl [] hr, ?_⟩
      simpa using hr.2.2.1
    | cons b pl =>
      obtain ⟨p', heq, hrepr', _, _, _⟩ := get_full_locked_cons p b fl pl hr
      exact ⟨p', some b, heq, rfl, prepTl_none_iff p' fl pl hrepr',
        hrepr'.2.2.1⟩

/-- Witness for C10 at a concrete pool: prepared list [7], appending buffer 3
and removing the head. -/
theorem prepared_head_tail_consistent_witness :
    (examplePoolC.prepTl = none ↔ examplePoolC.prepHd = none) ∧
    examplePoolC.prepTl = ([7] : List Nat).getLast? ∧
    (∃ p', queue_full_audio_buffer examplePoolC 3 = some (p', true) ∧
      (p'.prepTl = none ↔ p'.prepHd = none) ∧
      p'.prepTl = (([7] : List Nat) ++ [3]).getLast?) ∧
    (∃ p' r, get_full_locked examplePoolC = some (p', r) ∧
      r = ([7] : List Nat).head? ∧
      (p'.prepTl = none ↔ p'.prepHd = none) ∧
      p'.prepTl = ([7] : List Nat).tail.getLast?) :=
  prepared_head_tail_consistent examplePoolC 3 [] [7] (by decide) (by decide)
    (by decide)

/-- C3 counterexample: on the default connection between two distinct pools,
a buffer given through the producer give slot lands on the **producer**
pool's prepared list; the consumer pool is untouched (its prepared list is
still exactly [7]), contradicting the claim that producer give appends to the
consumer pool's prepared list.  Likewise the consumer give prepends to the
**consumer** pool's own free list — the producer pool's free list still
starts at buffer 5, not at the given buffer. -/
theorem give_buffer_default_cx :
    (producer_pool_give_buffer_default exampleConn 3).map
      (fun r => (r.1.producer_pool.prepHd, r.1.consumer_pool.prepHd,
        r.1.consumer_pool.prepTl)) = some (some 3, some 7, some 7) ∧
    (consumer_pool_give_buffer_default exampleConn 3).map
      (fun r => (r.1.consumer_pool.free, r.1.producer_pool.free)) =
      some (some 3, some 5) := by
  exact ⟨rfl, rfl⟩

/-- C3 (amended): the default producer give appends the buffer to the tail of
the **producer** pool's own prepared list and issues a wake; the default
consumer give prepends the buffer to the head of the **consumer** pool's own
free list and issues a wake; in both cases the opposite pool of the
connection is untouched. -/
theorem give_buffer_default_amended (c : Connection) (ab : Nat)
    (fl pl fl' pl' : List Nat)
    (hp : PoolRepr c.producer_pool fl pl)
    (hpn : hNext c.producer_pool.heap ab = none) (hpm : ab ∉ fl ++ pl)
    (hc : PoolRepr c.consumer_pool fl' pl')
    (hcn : hNext c.consumer_pool.heap ab = none) (hcm : ab ∉ fl' ++ pl') :
    (∃ c2, producer_pool_give_buffer_default c ab = some (c2, true) ∧
      PoolRepr c2.producer_pool fl (pl ++ [ab]) ∧
      c2.consumer_pool = c.consumer_pool) ∧
    (∃ c2, consumer_pool_give_buffer_default c ab = some (c2, true) ∧
      PoolRepr c2.consumer_pool (ab :: fl') pl' ∧
      c2.producer_pool = c.producer_pool) := by
  constructor
  · obtain ⟨p', heq, hrepr', _, _⟩ :=
      queue_full_repr c.producer_pool ab fl pl hp hpn hpm
    refine ⟨{ c with producer_pool := p' }, ?_, hrepr', rfl⟩
    simp [producer_pool_give_buffer_default, heq]
  · obtain ⟨p', heq, hrepr', _, _, _⟩ :=
      queue_free_repr c.consumer_pool ab fl' pl' hc hcn hcm
    refine ⟨{ c with consumer_pool := p' }, ?_, hrepr', rfl⟩
    simp [consumer_pool_give_buffer_default, heq]

/-- Witness for the amended C3 at the concrete connection: buffer 3 given
through the producer slot ends on the producer pool's prepared list, buffer 3
given through the consumer slot ends on the consumer pool's free list. -/
theorem give_buffer_default_amended_witness :
    (∃ c2, producer_pool_give_buffer_default exampleConn 3 = some (c2, true) ∧
      PoolRepr c2.producer_pool [5] ([] ++ [3]) ∧
      c2.consumer_pool = exampleConn.consumer_pool) ∧
    (∃ c2, consumer_pool_give_buffer_default exampleConn 3 = some (c2, true) ∧
      PoolRepr c2.consumer_pool (3 :: []) [7] ∧
      c2.producer_pool = exampleConn.producer_pool) :=
  give_buffer_default_amended exampleConn 3 [5] [] [] [7] (by decide)
    (by decide) (by decide) (by decide) (by decide) (by decide)

/-- Under the invariant, a recorded playing buffer is fresh: NULL `next`
pointer and on neither list. -/
theorem slot_fresh (s : SysState) (ch : Bool) (hinv : Inv s) :
    ∀ b0, playingSlot s ch = some b0 →
    hNext s.pool.heap b0 = none ∧ b0 ∉ freeListOf s ++ prepListOf s := by
  intro b0 hb0
  cases ch with
  | false =>
    have h0 : s.playing0 = some b0 := hb0
    have hnot := p0_not_in_lists hinv.2.1 h0
    exact ⟨owner_next_null hinv (mem_owners_p0 h0) hnot, hnot⟩
  | true =>
    have h1 : s.playing1 = some b0 := hb0
    have hnot := p1_not_in_lists hinv.2.1 h1
    exact ⟨owner_next_null hinv (mem_owners_p1 h1) hnot, hnot⟩

/-- C1: FIFO ordering.  From any invariant state whose prepared list is
empty, over any successful event trace the buffers armed by the engine
(dequeued by `get_full_audio_buffer` inside `audio_start_dma_transfer`),
followed by the buffers still waiting on the prepared chain, are exactly the
buffers enqueued by `queue_full_audio_buffer`, in give order — so the
prepared list behaves as a FIFO queue (append at tail, remove at head) and
buffers are armed in exactly the order they were given. -/
theorem fifo_ordering (s : SysState) (tr : List Ev) (s' : SysState)
    (os : List Obs) (hinv : Inv s) (hprep : prepListOf s = [])
    (hr : run s tr = some (s', os)) :
    armedSeq os ++ prepListOf s' = gaveSeq os := by
  have h := run_inv s tr s' os hinv hr
  rw [hprep] at h
  simpa using h.2

/-- Witness for C1: running the concrete trace on the concrete state, the
armed sequence [0, 1] together with the now-empty prepared chain equals the
give sequence [0, 1]. -/
theorem fifo_ordering_witness :
    Inv exampleSys ∧ prepListOf exampleSys = [] ∧
    ∃ s' os, run exampleSys exampleTrace = some (s', os) ∧
      armedSeq os ++ prepListOf s' = gaveSeq os := by
  refine ⟨by decide, by decide, ?_⟩
  refine ⟨_, _, rfl, ?_⟩
  exact fifo_ordering exampleSys exampleTrace _ _ (by decide) (by decide) rfl

/-- C4: no double ownership.  In every state reachable by a successful trace
from an invariant state, every buffer is owned by at most one of the free
list, the prepared list, a playing slot and the application (the owner list
has no duplicates); a buffer that is not enqueued in a list has a NULL
`next` pointer; and both enqueue operations require (they assert)
`next == NULL` on entry: they only ever succeed on such a buffer. -/
theorem no_double_ownership (s : SysState) (tr : List Ev) (s' : SysState)
    (os : List Obs) (hinv : Inv s) (hr : run s tr = some (s', os)) :
    (ownersOf s').Nodup ∧
    (∀ b, b < s'.nbuf → b ∉ freeListOf s' → b ∉ prepListOf s' →
      hNext s'.pool.heap b = none) ∧
    (∀ p ab r, queue_full_audio_buffer p ab = some r →
      hNext p.heap ab = none) ∧
    (∀ p ab r, queue_free_audio_buffer p ab = some r →
      hNext p.heap ab = none) := by
  obtain ⟨hinv', _⟩ := run_inv s tr s' os hinv hr
  refine ⟨hinv'.2.1, ?_, ?_, ?_⟩
  · intro b hb hf hp
    exact hinv'.2.2.2 b (List.mem_range.mpr hb) hf hp
  · intro p ab r h
    by_cases hn : hNext p.heap ab = none
    · exact hn
    · simp [queue_full_audio_buffer, hn] at h
  · intro p ab r h
    by_cases hn : hNext p.heap ab = none
    · exact hn
    · simp [queue_free_audio_buffer, hn] at h

/-- Witness for C4 on the concrete trace. -/
theorem no_double_ownership_witness :
    Inv exampleSys ∧
    ∃ s' os, run exampleSys exampleTrace = some (s', os) ∧
      ((ownersOf s').Nodup ∧
      (∀ b, b < s'.nbuf → b ∉ freeListOf s' → b ∉ prepListOf s' →
        hNext s'.pool.heap b = none) ∧
      (∀ p ab r, queue_full_audio_buffer p ab = some r →
        hNext p.heap ab = none) ∧
      (∀ p ab r, queue_free_audio_buffer p ab = some r →
        hNext p.heap ab = none)) := by
  refine ⟨by decide, ?_⟩
  refine ⟨_, _, rfl, ?_⟩
  exact no_double_ownership exampleSys exampleTrace _ _ (by decide) rfl

/-- C2: underrun substitutes silence.  At an arm step with an empty prepared
list the interrupt completes without error, the DMA source is the pre-zeroed
silence buffer (never a stale previously played buffer — the observation
records a silence arm), the playing-buffer slot of the channel is left NULL,
and consequently the subsequent interrupt on that channel recycles nothing,
so the silence buffer never enters any pool. -/
theorem underrun_silence (s : SysState) (ch : Bool) (data : Nat → List Int)
    (n : Nat) (hinv : Inv s) (hprep : prepListOf s = []) :
    ∃ s', step s (.irq ch) = some (s', .irqDone (playingSlot s ch) none) ∧
      playingSlot s' ch = none ∧
      dma_src_bytes data n none = List.replicate n 0 ∧
      (∀ s2 o2, step s' (.irq ch) = some (s2, o2) → recycledOf o2 = none) := by
  obtain ⟨p1, heq1, hrepr1, _, _, _⟩ :=
    irq_recycle_spec s.pool (playingSlot s ch) (freeListOf s) (prepListOf s)
      hinv.1 (slot_fresh s ch hinv)
  rw [hprep] at hrepr1
  have harm := (audio_start_dma_transfer_spec p1 _ _ hrepr1).1 rfl
  refine ⟨setSlot { s with pool := p1 } ch none, ?_, ?_, ?_, ?_⟩
  · simp [step, heq1, harm]
  · exact playingSlot_setSlot _ ch none
  · simp [dma_src_bytes, silence_bytes]
  · intro s2 o2 h2
    have hslot : playingSlot (setSlot { s with pool := p1 } ch none) ch =
        none := playingSlot_setSlot _ ch none
    simp only [step, hslot, irq_recycle] at h2
    cases harm2 :
        audio_start_dma_transfer (setSlot { s with pool := p1 } ch none).pool
      with
    | none => rw [harm2] at h2; exact absurd h2 (by simp)
    | some r =>
      rw [harm2] at h2
      obtain ⟨p2, ab⟩ := r
      simp at h2
      rw [← h2.2]
      rfl

/-- Witness for C2 at the concrete state (empty prepared list): the DMA is
armed with the silence pattern and the next interrupt recycles nothing. -/
theorem underrun_silence_witness :
    Inv exampleSys ∧ prepListOf exampleSys = [] ∧
    ∃ s', step exampleSys (.irq false) =
        some (s', .irqDone (playingSlot exampleSys false) none) ∧
      playingSlot s' false = none ∧
      dma_src_bytes (fun _ => ([] : List Int)) 4 none = List.replicate 4 0 ∧
      (∀ s2 o2, step s' (.irq false) = some (s2, o2) →
        recycledOf o2 = none) :=
  ⟨by decide, by decide,
    underrun_silence exampleSys false (fun _ => ([] : List Int)) 4 (by decide)
      (by decide)⟩

/-- C5 counterexample: at a 125 MHz system clock, S32 stereo, 44100 Hz, the
source computes divider 125000000 * 1 * 2 / 44100 = 5668, while the 16.8
fixed-point encoding of system_clock / (sample_rate × bits × channels) is
256 * 125000000 / (44100 * 32 * 2) = 11337 — the programmed divider is not
the claimed value (it is its half: the PIO program spends two clock cycles
per output bit). -/
theorem update_pio_divider_cx :
    update_pio_divider 125000000 .s32 2 44100 = 5668 ∧
    spec_divider 125000000 44100 32 2 = 11337 ∧
    ¬ update_pio_divider 125000000 .s32 2 44100 =
        spec_divider 125000000 44100 32 2 := by
  refine ⟨by decide, by decide, by decide⟩

/-- C5 (amended): for the supported stereo configuration the programmed
divider equals the 16.8 fixed-point encoding of
system_clock / (2 × sample_rate × bits_per_sample × channel_count) — the
extra factor 2 because the PIO program spends two clock cycles per output
bit — for each bits_per_sample in {8, 16, 32}; and the programmed value is
the fixed-point pair: integer part `divider >> 8` and 8-bit fraction
`divider & 0xff` recombine to the divider. -/
theorem update_pio_divider_amended (sysclk rate : Nat)
    (fmt : audio_pcm_format) :
    update_pio_divider sysclk fmt 2 rate =
      256 * sysclk / (2 * (rate * pcm_bits fmt * 2)) ∧
    pio_clkdiv_int (update_pio_divider sysclk fmt 2 rate) * 256 +
      pio_clkdiv_frac (update_pio_divider sysclk fmt 2 rate) =
      update_pio_divider sysclk fmt 2 rate := by
  constructor
  · cases fmt <;> simp only [update_pio_divider, pcm_bits]
    case s8 | u8 =>
      rw [show 2 * (rate * 8 * 2) = 32 * rate by ring,
        show 256 * sysclk = 32 * (sysclk * 4 * 2) by ring,
        Nat.mul_div_mul_left _ _ (by norm_num)]
    case s16 | u16 =>
      rw [show 2 * (rate * 16 * 2) = 64 * rate by ring,
        show 256 * sysclk = 64 * (sysclk * 2 * 2) by ring,
        Nat.mul_div_mul_left _ _ (by norm_num)]
    case s32 | u32 =>
      rw [show 2 * (rate * 32 * 2) = 128 * rate by ring,
        show 256 * sysclk = 128 * (sysclk * 1 * 2) by ring,
        Nat.mul_div_mul_left _ _ (by norm_num)]
  · simp only [pio_clkdiv_int, pio_clkdiv_frac]
    omega

/-- Helper for C6: once the stored rate equals the requested rate, any number
of further identical requests leave the state untouched. -/
theorem rate_check_same (r : Nat) :
    ∀ (n : Nat) (s : RateState), s.freq = r →
    List.foldl rate_check_step s (List.replicate n r) = s := by
  intro n
  induction n with
  | zero => intro s _; rfl
  | succ n ih =>
    intro s hs
    have hstep : rate_check_step s r = s := by
      simp [rate_check_step, hs.symm]
    simp only [List.replicate_succ, List.foldl_cons, hstep]
    exact ih s hs

/-- C6: rate-change idempotence.  The rate check at the head of
`wrap_consumer_take` / `wrap_producer_give` compares the producer rate with
the stored rate, reprograms only on mismatch, updates the stored rate, and a
matching rate is a no-op — hence N consecutive operations requesting the
same rate reprogram the clock divider at most once. -/
theorem rate_change_idempotent (s : RateState) (r : Nat) (n : Nat) :
    (List.foldl rate_check_step s (List.replicate n r)).reprogram_count ≤
      s.reprogram_count + 1 ∧
    (s.freq = r → List.foldl rate_check_step s (List.replicate n r) = s) ∧
    (∀ rr, rr ≠ s.freq → rate_check_step s rr =
      { freq := rr, reprogram_count := s.reprogram_count + 1 }) ∧
    (∀ rr, rr = s.freq → rate_check_step s rr = s) := by
  refine ⟨?_, rate_check_same r n s, ?_, ?_⟩
  · cases n with
    | zero => simp
    | succ n =>
      by_cases hs : s.freq = r
      · rw [rate_check_same r (n + 1) s hs]
        omega
      · have hne : r ≠ s.freq := fun h => hs h.symm
        have hstep : rate_check_step s r =
            { freq := r, reprogram_count := s.reprogram_count + 1 } := by
          simp [rate_check_step, hne]
        rw [List.replicate_succ, List.foldl_cons, hstep,
          rate_check_same r n _ rfl]
  · intro rr hrr
    simp [rate_check_step, hrr]
  · intro rr hrr
    simp [rate_check_step, hrr]

/-- Witness for C6: five requests at 48000 Hz starting from stored rate
44100 Hz reprogram exactly once; a matching request is a no-op. -/
theorem rate_change_idempotent_witness :
    ((List.foldl rate_check_step ⟨44100, 0⟩
        (List.replicate 5 48000)).reprogram_count ≤ 0 + 1 ∧
    ((⟨44100, 0⟩ : RateState).freq = 48000 →
      List.foldl rate_check_step ⟨44100, 0⟩ (List.replicate 5 48000) =
        ⟨44100, 0⟩) ∧
    (∀ rr, rr ≠ (⟨44100, 0⟩ : RateState).freq →
      rate_check_step ⟨44100, 0⟩ rr = { freq := rr, reprogram_count := 0 + 1 }) ∧
    (∀ rr, rr = (⟨44100, 0⟩ : RateState).freq →
      rate_check_step ⟨44100, 0⟩ rr = ⟨44100, 0⟩)) ∧
    rate_check_step ⟨44100, 0⟩ 44100 = ⟨44100, 0⟩ :=
  ⟨rate_change_idempotent ⟨44100, 0⟩ 48000 5,
    (rate_change_idempotent ⟨44100, 0⟩ 44100 1).2.2.2 44100 rfl⟩

/-- An empty free list leaves the probe without effect. -/
theorem get_free_locked_empty (p : Pool) (h : p.free = none) :
    get_free_locked p = (p, none) := by
  cases p
  simp_all [get_free_locked, list_remove_head]

/-- An empty prepared list leaves the probe without effect (the tail pointer
is returned unchanged, no assertion fires). -/
theorem get_full_locked_empty (p : Pool) (h : p.prepHd = none) :
    get_full_locked p = some (p, none) := by
  cases p
  simp_all [get_full_locked, list_remove_head_with_tail]

/-- A probe on a non-empty free list returns the head buffer. -/
theorem get_free_locked_found (p : Pool) (b : Nat) (h : p.free = some b) :
    get_free_locked p = ((get_free_locked p).1, some b) := by
  have : (get_free_locked p).2 = some b := by
    simp [get_free_locked, list_remove_head, h]
  exact Prod.ext rfl this

/-- Blocking `get_free_audio_buffer`: while the free list stays empty the
loop waits (`__wfe`) and retries; at the first probe that finds a buffer it
removes and returns the head.  `k` counts the waits. -/
theorem get_free_retry_aux (env : Nat → Pool) (b : Nat) :
    ∀ (k fuel i : Nat), (∀ j, j < k → (env (i + j)).free = none) →
    (env (i + k)).free = some b → k < fuel →
    get_free_audio_buffer env true fuel i =
      some ((get_free_locked (env (i + k))).1, some b, i + k) := by
  intro k
  induction k with
  | zero =>
    intro fuel i _ hfound hfuel
    cases fuel with
    | zero => omega
    | succ fuel =>
      have hf : (env i).free = some b := by simpa using hfound
      have h2 := get_free_locked_found (env i) b hf
      simp only [get_free_audio_buffer]
      rw [h2]
      simp
  | succ k ih =>
    intro fuel i hempty hfound hfuel
    cases fuel with
    | zero => omega
    | succ fuel =>
      have h0 : (env i).free = none := by simpa using hempty 0 (by omega)
      have h2 := get_free_locked_empty (env i) h0
      have hres := ih fuel (i + 1)
        (fun j hj => by
          rw [show i + 1 + j = i + (j + 1) from by omega]
          exact hempty (j + 1) (by omega))
        (by rw [show i + 1 + k = i + (k + 1) from by omega]; exact hfound)
        (by omega)
      rw [show i + 1 + k = i + (k + 1) from by omega] at hres
      simp only [get_free_audio_buffer]
      rw [h2]
      simpa using hres

/-- Blocking `get_full_audio_buffer`: while the prepared list stays empty the
loop waits (`__wfe`) and retries; at the first probe that finds a buffer it
removes and returns the head. -/
theorem get_full_retry_aux (env : Nat → Pool) (b : Nat) (fl pl : List Nat) :
    ∀ (k fuel i : Nat), (∀ j, j < k → (env (i + j)).prepHd = none) →
    PoolRepr (env (i + k)) fl (b :: pl) → k < fuel →
    ∃ p', get_full_locked (env (i + k)) = some (p', some b) ∧
      get_full_audio_buffer env true fuel i = some (p', some b, i + k) ∧
      isChain p'.heap p'.prepHd pl := by
  intro k
  induction k with
  | zero =>
    intro fuel i _ hrepr hfuel
    cases fuel with
    | zero => omega
    | succ fuel =>
      have hrepr' : PoolRepr (env i) fl (b :: pl) := by simpa using hrepr
      obtain ⟨p', heq, hrepr2, _, _, _⟩ :=
        get_full_locked_cons (env i) b fl pl hrepr'
      refine ⟨p', by simpa using heq, ?_, hrepr2.2.1⟩
      simp only [get_full_audio_buffer]
      rw [heq]
      simp
  | succ k ih =>
    intro fuel i hempty hrepr hfuel
    cases fuel with
    | zero => omega
    | succ fuel =>
      have h0 : (env i).prepHd = none := by simpa using hempty 0 (by omega)
      have h2 := get_full_locked_empty (env i) h0
      obtain ⟨p', heq, hloop, hch⟩ := ih fuel (i + 1)
        (fun j hj => by
          rw [show i + 1 + j = i + (j + 1) from by omega]
          exact hempty (j + 1) (by omega))
        (by rw [show i + 1 + k = i + (k + 1) from by omega]; exact hrepr)
        (by omega)
      rw [show i + 1 + k = i + (k + 1) from by omega] at heq hloop
      refine ⟨p', heq, ?_, hch⟩
      simp only [get_full_audio_buffer]
      rw [h2]
      simpa using hloop

/-- C7: take semantics.  With the default connection operations, take on a
producer pool removes and returns the head of its free list and take on a
consumer pool removes and returns the head of its prepared list (whatever
the blocking mode); on an empty list a non-blocking take returns NULL and
leaves the pool unchanged; and a blocking take suspends on the wait-for-event
primitive, retrying until a buffer is available, then returns the head found
at the first non-empty probe. -/
theorem take_audio_buffer_semantics :
    (∀ c b fl pl blk fuel, PoolRepr c.producer_pool (b :: fl) pl →
      ∃ p', take_audio_buffer c .producer blk (fuel + 1) = some (p', some b, 0) ∧
        isChain p'.heap p'.free fl) ∧
    (∀ c b fl pl blk fuel, PoolRepr c.consumer_pool fl (b :: pl) →
      ∃ p', take_audio_buffer c .consumer blk (fuel + 1) = some (p', some b, 0) ∧
        isChain p'.heap p'.prepHd pl) ∧
    (∀ c fuel, c.producer_pool.free = none →
      take_audio_buffer c .producer false (fuel + 1) =
        some (c.producer_pool, none, 0)) ∧
    (∀ c fuel, c.consumer_pool.prepHd = none →
      take_audio_buffer c .consumer false (fuel + 1) =
        some (c.consumer_pool, none, 0)) ∧
    (∀ env b k fuel, (∀ j, j < k → (env j : Pool).free = none) →
      (env k).free = some b → k < fuel →
      get_free_audio_buffer env true fuel 0 =
        some ((get_free_locked (env k)).1, some b, k)) ∧
    (∀ env b fl pl k fuel, (∀ j, j < k → (env j : Pool).prepHd = none) →
      PoolRepr (env k) fl (b :: pl) → k < fuel →
      ∃ p', get_full_audio_buffer env true fuel 0 = some (p', some b, k) ∧
        isChain p'.heap p'.prepHd pl) := by
  refine ⟨?_, ?_, ?_, ?_, ?_, ?_⟩
  · intro c b fl pl blk fuel h
    obtain ⟨p', hgl, hrepr', _, _, _, _⟩ :=
      get_free_locked_cons c.producer_pool b fl pl h
    refine ⟨p', ?_, hrepr'.1⟩
    simp only [take_audio_buffer, get_free_audio_buffer]
    rw [hgl]
    simp
  · intro c b fl pl blk fuel h
    obtain ⟨p', heq, hrepr', _, _, _⟩ :=
      get_full_locked_cons c.consumer_pool b fl pl h
    refine ⟨p', ?_, hrepr'.2.1⟩
    simp only [take_audio_buffer, get_full_audio_buffer]
    rw [heq]
    simp
  · intro c fuel h
    have h2 := get_free_locked_empty c.producer_pool h
    simp only [take_audio_buffer, get_free_audio_buffer]
    rw [h2]
    simp
  · intro c fuel h
    have h2 := get_full_locked_empty c.consumer_pool h
    simp only [take_audio_buffer, get_full_audio_buffer]
    rw [h2]
    simp
  · intro env b k fuel hempty hfound hfuel
    have := get_free_retry_aux env b k fuel 0 (fun j hj => by simpa using hempty j hj)
      (by simpa using hfound) hfuel
    simpa using this
  · intro env b fl pl k fuel hempty hrepr hfuel
    obtain ⟨p', _, hloop, hch⟩ := get_full_retry_aux env b fl pl k fuel 0
      (fun j hj => by simpa using hempty j hj) (by simpa using hrepr) hfuel
    exact ⟨p', by simpa using hloop, hch⟩

/-- Witness for C7: head removal on the concrete connection, NULL on the
empty connection, and the blocking loops waiting twice before finding a
buffer in the concrete environments. -/
theorem take_audio_buffer_semantics_witness :
    (∃ p', take_audio_buffer exampleConn .producer false 1 =
        some (p', some 5, 0) ∧ isChain p'.heap p'.free []) ∧
    (∃ p', take_audio_buffer exampleConn .consumer false 1 =
        some (p', some 7, 0) ∧ isChain p'.heap p'.prepHd []) ∧
    take_audio_buffer exampleConnEmpty .producer false 1 =
      some (exampleConnEmpty.producer_pool, none, 0) ∧
    take_audio_buffer exampleConnEmpty .consumer false 1 =
      some (exampleConnEmpty.consumer_pool, none, 0) ∧
    get_free_audio_buffer exampleEnv true 4 0 =
      some ((get_free_locked (exampleEnv 2)).1, some 5, 2) ∧
    (∃ p', get_full_audio_buffer examplePrepEnv true 4 0 =
        some (p', some 7, 2) ∧ isChain p'.heap p'.prepHd []) :=
  ⟨take_audio_buffer_semantics.1 exampleConn 5 [] [] false 0 (by decide),
   take_audio_buffer_semantics.2.1 exampleConn 7 [] [] false 0 (by decide),
   take_audio_buffer_semantics.2.2.1 exampleConnEmpty 0 (by decide),
   take_audio_buffer_semantics.2.2.2.1 exampleConnEmpty 0 (by decide),
   take_audio_buffer_semantics.2.2.2.2.1 exampleEnv 5 2 4 (by decide)
     (by decide) (by decide),
   take_audio_buffer_semantics.2.2.2.2.2 examplePrepEnv 7 [] [] 2 4
     (by decide) (by decide) (by decide)⟩

/-- C8 (code-bug evidence): `audio_i2s_setup` has no NULL-returning failure
path.  An unsupported format combination (here: mono output) trips a fatal
assertion (`Except.error`) instead of returning the NULL sentinel documented
in the header (`@retval NULL Initialization failed`); no input at all makes
the function return NULL; and on a supported format it returns the given
output format. -/
theorem audio_i2s_setup_no_null_sentinel :
    audio_i2s_setup ⟨44100, .s16, 2⟩ ⟨44100, .s16, 1⟩ = .error () ∧
    (∀ inp out, audio_i2s_setup inp out ≠ .ok none) ∧
    audio_i2s_setup ⟨44100, .s32, 2⟩ ⟨44100, .s32, 2⟩ =
      .ok (some ⟨44100, .s32, 2⟩) := by
  refine ⟨rfl, ?_, rfl⟩
  intro inp out h
  simp only [audio_i2s_setup] at h
  split at h
  · exact absurd h (by simp)
  · split at h
    · exact absurd h (by simp)
    · exact absurd h (by simp)

/-- Composing PIO runs. -/
theorem pio_run_add : ∀ (m n : Nat) (s : PioState),
    pio_run (pio_run s m) n = pio_run s (m + n) := by
  intro m
  induction m with
  | zero =>
    intro n s
    rw [Nat.zero_add]
    rfl
  | succ m ih =>
    intro n s
    have h1 : pio_run s (m + 1) = pio_run (pio_step s) m := rfl
    rw [h1, ih n (pio_step s),
      show m + 1 + n = m + n + 1 from by omega]
    rfl

/-- The right-channel loop: starting at offset 0 with bit counter X = c, the
program shifts out c + 2 data bits, then `mov x, isr` at offset 3 reloads X
from the ISR and execution continues at the left-channel loop (offset 4). -/
theorem pio_right_loop (c : Nat) : ∀ (i k : Nat),
    pio_run ⟨0, c, i, k⟩ (2 * c + 4) = ⟨4, i, i, k + (c + 2)⟩ := by
  induction c with
  | zero =>
    intro i k
    simp [pio_run, pio_step, audio_i2s_program]
  | succ c ih =>
    intro i k
    rw [show 2 * (c + 1) + 4 = 2 + (2 * c + 4) from by ring, ← pio_run_add]
    have hs : pio_run ⟨0, c + 1, i, k⟩ 2 = ⟨0, c, i, k + 1⟩ := by
      simp [pio_run, pio_step, audio_i2s_program]
    rw [hs, ih i (k + 1),
      show k + 1 + (c + 2) = k + (c + 1 + 2) from by omega]

/-- The left-channel loop: starting at offset 4 with bit counter X = c, the
program shifts out c + 2 data bits, then `mov x, isr` at offset 7 reloads X
from the ISR and execution wraps to the right-channel loop (offset 0). -/
theorem pio_left_loop (c : Nat) : ∀ (i k : Nat),
    pio_run ⟨4, c, i, k⟩ (2 * c + 4) = ⟨0, i, i, k + (c + 2)⟩ := by
  induction c with
  | zero =>
    intro i k
    simp [pio_run, pio_step, audio_i2s_program]
  | succ c ih =>
    intro i k
    rw [show 2 * (c + 1) + 4 = 2 + (2 * c + 4) from by ring, ← pio_run_add]
    have hs : pio_run ⟨4, c + 1, i, k⟩ 2 = ⟨4, c, i, k + 1⟩ := by
      simp [pio_run, pio_step, audio_i2s_program]
    rw [hs, ih i (k + 1),
      show k + 1 + (c + 2) = k + (c + 1 + 2) from by omega]

/-- C9: the per-sample bit counter is reloaded from a configuration register
holding resolution − 2.  `audio_i2s_program_init` writes `res_bits − 2` into
the PIO ISR register; the instructions at the two word boundaries (offset 3
and the entry point, offset 7) are `mov x, isr`; and one full frame starting
at the entry point with ISR = res_bits − 2 runs the right-channel loop and
then the left-channel loop, each reloading the countdown counter X from the
ISR at its word boundary and shifting out exactly res_bits data bits per
channel (2 × res_bits per frame). -/
theorem pio_bit_counter_reload (res_bits : Nat) (h2 : 2 ≤ res_bits) :
    (audio_i2s_program_init res_bits).isr = res_bits - 2 ∧
    audio_i2s_program.getD 3 (.outBit 0) = .movXIsr 3 ∧
    audio_i2s_program.getD audio_i2s_offset_entry_point (.outBit 0) =
      .movXIsr 1 ∧
    (∀ x0 k, pio_run ⟨audio_i2s_offset_entry_point, x0, res_bits - 2, k⟩
        (1 + (2 * (res_bits - 2) + 4) + (2 * (res_bits - 2) + 4)) =
      ⟨0, res_bits - 2, res_bits - 2, k + 2 * res_bits⟩) := by
  refine ⟨rfl, rfl, rfl, ?_⟩
  intro x0 k
  have hsplit : pio_run ⟨audio_i2s_offset_entry_point, x0, res_bits - 2, k⟩
      (1 + (2 * (res_bits - 2) + 4) + (2 * (res_bits - 2) + 4)) =
      pio_run (pio_run
        (pio_run ⟨audio_i2s_offset_entry_point, x0, res_bits - 2, k⟩ 1)
        (2 * (res_bits - 2) + 4)) (2 * (res_bits - 2) + 4) := by
    conv_rhs => rw [pio_run_add, pio_run_add]
    rw [show 1 + (2 * (res_bits - 2) + 4) + (2 * (res_bits - 2) + 4) =
      1 + (2 * (res_bits - 2) + 4 + (2 * (res_bits - 2) + 4)) from by omega]
  have h1 : pio_run ⟨audio_i2s_offset_entry_point, x0, res_bits - 2, k⟩ 1 =
      ⟨0, res_bits - 2, res_bits - 2, k⟩ := by
    simp [pio_run, pio_step, audio_i2s_program, audio_i2s_offset_entry_point]
  rw [hsplit, h1, pio_right_loop (res_bits - 2) (res_bits - 2) k,
    pio_left_loop (res_bits - 2) (res_bits - 2) (k + (res_bits - 2 + 2)),
    show k + (res_bits - 2 + 2) + (res_bits - 2 + 2) = k + 2 * res_bits
      from by omega]

/-- Witness for C9 at 32-bit resolution: the init sequence leaves 30 in the
ISR and a full frame from the entry point shifts out 64 data bits. -/
theorem pio_bit_counter_reload_witness :
    2 ≤ 32 ∧ (audio_i2s_program_init 32).isr = 32 - 2 ∧
    pio_run ⟨audio_i2s_offset_entry_point, 0, 32 - 2, 0⟩
        (1 + (2 * (32 - 2) + 4) + (2 * (32 - 2) + 4)) =
      ⟨0, 32 - 2, 32 - 2, 0 + 2 * 32⟩ :=
  ⟨by decide, (pio_bit_counter_reload 32 (by decide)).1,
    (pio_bit_counter_reload 32 (by decide)).2.2.2 0 0⟩

end PicoAudio
